import Mathlib

/-!
Shallow embedding of the automaton engine of the repository
`Gramatyki-automaty-i-biokomputery` (files `src/dfa.py`, `src/tree_to_dfa.py`,
`src/decision_tree.py`), together with proofs and refutations of the frozen
claims about it.

Conventions of the embedding:
* A Python `set` of states is a duplicate-free `List`; `set.add` is
  `insertS` (append if absent, mirroring that insertion of a present
  element is a no-op).
* The transition dictionary `transitions[q][symbol] -> q_next` is
  flattened to an association list keyed by the pair `(q, symbol)`;
  `dict` write with overwrite is `tupdate`, lookup with default `None`
  is `tlookup`.
* A raised Python exception is `Except.error` carrying the message.
* The call `add_state(sid, accepting=...)` found in `product` and in
  `tree_to_dfa` does not match the signature
  `add_state(self, state, accepting_states=False)` in `dfa.py`; Python
  rejects the unexpected keyword argument at call time.  The helper
  `add_state_call_kw` reproduces exactly this keyword-binding step.
* `while` loops are given explicit fuel; for the minimization loop the
  fuel `3 * |states| + 4` is proved sufficient (the loop reaches its
  fixpoint with the worklist empty before the fuel runs out).
-/

namespace GAB

/-- Python `set.add` on a duplicate-free list: no-op when present. -/
def insertS {σ : Type} [DecidableEq σ] (l : List σ) (s : σ) : List σ :=
  if s ∈ l then l else l ++ [s]

/-- Python `set.discard`. -/
def removeS {σ : Type} [DecidableEq σ] (l : List σ) (s : σ) : List σ :=
  l.filter (fun x => x ≠ s)

/-- Lookup in the flattened transition dictionary: `transitions.get(q, {}).get(c, None)`. -/
def tlookup {σ : Type} [DecidableEq σ] (t : List ((σ × Char) × σ)) (q : σ) (c : Char) :
    Option σ :=
  (t.find? (fun e => e.1 = (q, c))).map (fun e => e.2)

/-- Write with overwrite in the flattened transition dictionary:
`transitions[q][c] = v` (last write wins, position of an existing key kept). -/
def tupdate {σ : Type} [DecidableEq σ] (t : List ((σ × Char) × σ)) (q : σ) (c : Char)
    (v : σ) : List ((σ × Char) × σ) :=
  if (t.find? (fun e => e.1 = (q, c))).isSome then
    t.map (fun e => if e.1 = (q, c) then ((q, c), v) else e)
  else
    t ++ [((q, c), v)]

/-- The `DFA` class of `src/dfa.py`: alphabet tuple, set of states, optional
start state, set of accepting states, transition dictionary. -/
structure DFA (σ : Type) where
  alphabet : List Char
  states : List σ
  start_state : Option σ
  accepting_states : List σ
  transitions : List ((σ × Char) × σ)

/-- `DFA(alphabet)`: created empty. -/
def DFA.init (alphabet : List Char) : DFA σ :=
  ⟨alphabet, [], none, [], []⟩

/-- `add_state(state, accepting_states=False)` from `src/dfa.py`. -/
def add_state {σ : Type} [DecidableEq σ] (d : DFA σ) (state : σ)
    (accepting_states : Bool := false) : DFA σ :=
  { d with
    states := insertS d.states state,
    accepting_states :=
      if accepting_states then insertS d.accepting_states state
      else d.accepting_states }

/-- The Python keyword-binding step for a call `d.add_state(state, kw=v)`:
the only accepted keyword is the declared parameter name
`accepting_states`; any other keyword raises `TypeError`. -/
def add_state_call_kw {σ : Type} [DecidableEq σ] (d : DFA σ) (state : σ)
    (kw : String) (v : Bool) : Except String (DFA σ) :=
  if kw = "accepting_states" then Except.ok (add_state d state v)
  else Except.error ("TypeError: add_state() got an unexpected keyword argument " ++ kw)

/-- `set_start(state)` from `src/dfa.py`: inserts the state and records it. -/
def set_start {σ : Type} [DecidableEq σ] (d : DFA σ) (state : σ) : DFA σ :=
  { d with states := insertS d.states state, start_state := some state }

/-- `set_accepting_state(state, val=True)` from `src/dfa.py`.
Note that it touches only `accepting_states`, never `states`. -/
def set_accepting_state {σ : Type} [DecidableEq σ] (d : DFA σ) (state : σ)
    (val : Bool := true) : DFA σ :=
  if val then { d with accepting_states := insertS d.accepting_states state }
  else { d with accepting_states := removeS d.accepting_states state }

/-- `add_transition(q_old, symbol, q_new)` from `src/dfa.py`: raises
`ValueError` for a symbol outside the alphabet, otherwise inserts both
endpoints into `states` and records the transition (overwriting). -/
def add_transition {σ : Type} [DecidableEq σ] (d : DFA σ) (q_old : σ) (symbol : Char)
    (q_new : σ) : Except String (DFA σ) :=
  if symbol ∈ d.alphabet then
    Except.ok
      { d with
        states := insertS (insertS d.states q_old) q_new,
        transitions := tupdate d.transitions q_old symbol q_new }
  else
    Except.error ("ValueError: Symbol does not belong to the alphabet")

/-- `step(state, symbol)` from `src/dfa.py`: dictionary lookup with `None` default. -/
def step {σ : Type} [DecidableEq σ] (d : DFA σ) (state : σ) (symbol : Char) : Option σ :=
  tlookup d.transitions state symbol

/-- The loop body of `accepts`, running from a current state value `s` that may
be Python `None` (`Option.none`): `step(None, a)` is `None` because `None` is
never a key of the transition dictionary, and `None in accepting_states` is
false. -/
def accepts_from {σ : Type} [DecidableEq σ] (d : DFA σ) : Option σ → List Char → Bool
  | none, [] => false
  | none, _ :: _ => false
  | some s, [] => decide (s ∈ d.accepting_states)
  | some s, a :: w =>
    match step d s a with
    | none => false
    | some t => accepts_from d (some t) w

/-- `accepts(word)` from `src/dfa.py`: start at `start_state` (possibly unset),
step through the word, reject on a missing transition, finish with membership
in the accepting set. -/
def accepts {σ : Type} [DecidableEq σ] (d : DFA σ) (word : List Char) : Bool :=
  accepts_from d d.start_state word

/-- `X = {q for q in self.states if self.step(q, c) in A}` in `minimize`:
the preimage of the splitter set `A` under the (partial) `c`-transition,
with `None` counting as outside `A`. -/
def preimg {σ : Type} [DecidableEq σ] (d : DFA σ) (c : Char) (A : List σ) : List σ :=
  d.states.filter (fun q =>
    match step d q c with
    | some t => decide (t ∈ A)
    | none => false)

/-- Python `set` equality between two lists viewed as sets. -/
def seteq {σ : Type} [DecidableEq σ] (X Y : List σ) : Bool :=
  X.all (fun x => x ∈ Y) && Y.all (fun y => y ∈ X)

/-- `W.remove(Y)` where `W` is a Python list of sets: removes the first
element equal (as a set) to `Y`. -/
def removeFirstSeteq {σ : Type} [DecidableEq σ] : List (List σ) → List σ → List (List σ)
  | [], _ => []
  | Z :: W, Y => if seteq Z Y then W else Z :: removeFirstSeteq W Y

/-- The worklist update of `minimize` when block `Y` splits into
`i = Y ∩ X` and `dd = Y \ X`: if `Y` is on the worklist it is replaced by
both halves, otherwise the smaller half is enqueued. -/
def splitW {σ : Type} [DecidableEq σ] (X : List σ) (Y : List σ) (W : List (List σ)) :
    List (List σ) :=
  if (W.find? (fun Z => seteq Z Y)).isSome then
    removeFirstSeteq W Y ++ [Y.filter (fun q => q ∈ X), Y.filter (fun q => q ∉ X)]
  else
    W ++ [if (Y.filter (fun q => q ∈ X)).length ≤ (Y.filter (fun q => q ∉ X)).length then
      Y.filter (fun q => q ∈ X) else Y.filter (fun q => q ∉ X)]

/-- The `for Y in P` body of `minimize` for a fixed splitter preimage `X`:
builds `newP` and updates the worklist `W` exactly as the source does
(`newP.append`s, `W.remove`/`W.append`s, smaller-half heuristic). -/
def splitPass {σ : Type} [DecidableEq σ] (X : List σ) :
    List (List σ) → List (List σ) → List (List σ) × List (List σ)
  | [], W => ([], W)
  | Y :: Ys, W =>
    if Y.filter (fun q => q ∈ X) ≠ [] ∧ Y.filter (fun q => q ∉ X) ≠ [] then
      (Y.filter (fun q => q ∈ X) :: Y.filter (fun q => q ∉ X) ::
        (splitPass X Ys (splitW X Y W)).1,
       (splitPass X Ys (splitW X Y W)).2)
    else
      (Y :: (splitPass X Ys W).1, (splitPass X Ys W).2)

/-- The `for c in self.alphabet` loop of `minimize` for a popped splitter `A`. -/
def symbolsPass {σ : Type} [DecidableEq σ] (d : DFA σ) (A : List σ) :
    List Char → List (List σ) → List (List σ) → List (List σ) × List (List σ)
  | [], P, W => (P, W)
  | c :: cs, P, W =>
    symbolsPass d A cs (splitPass (preimg d c A) P W).1 (splitPass (preimg d c A) P W).2

/-- The `while W:` refinement loop of `minimize`.  `W.pop()` pops the last
element.  The fuel argument is proved sufficient below; on exhaustion the
current partition is returned (a branch shown unreachable for the fuel
used by `minimize`). -/
def hopcroftLoop {σ : Type} [DecidableEq σ] (d : DFA σ) :
    Nat → List (List σ) → List (List σ) → List (List σ)
  | 0, P, _ => P
  | fuel + 1, P, W =>
    match W.getLast? with
    | none => P
    | some A =>
      let r := symbolsPass d A d.alphabet P W.dropLast
      hopcroftLoop d fuel r.1 r.2

/-- `mapping[s]`: the index of the (first) block of `P` containing `s`
(the dictionary `mapping` that `minimize` builds with `enumerate(partition)`). -/
def findBlockIdx {σ : Type} [DecidableEq σ] : List (List σ) → σ → Option Nat
  | [], _ => none
  | B :: P, s => if s ∈ B then some 0 else (findBlockIdx P s).map (fun j => j + 1)

/-- The `new.add_state(new_id, old in self.accepting_states)` loop of
`minimize`, iterating over blocks with their enumeration index. -/
def addBlockStates {σ : Type} [DecidableEq σ] (F : List σ) (n : DFA Nat)
    (ib : Nat × List σ) : DFA Nat :=
  ib.2.foldl (fun a s => add_state a ib.1 (decide (s ∈ F))) n

/-- The transition-copying loop of `minimize`:
`for q in self.states: for a in self.alphabet: ... new.add_transition(mapping[q], a, mapping[nxt])`.
The `add_transition` call never raises here because `a` is drawn from the
alphabet the new automaton was constructed with; the error branch keeps the
accumulator unchanged. -/
def copyStep {σ : Type} [DecidableEq σ] (d : DFA σ) (P : List (List σ))
    (acc : DFA Nat) (q : σ) (a : Char) : DFA Nat :=
  match step d q a with
  | none => acc
  | some nxt =>
    match findBlockIdx P q, findBlockIdx P nxt with
    | some mq, some mn =>
      match add_transition acc mq a mn with
      | Except.ok r => r
      | Except.error _ => acc
    | _, _ => acc

def copyTransitions {σ : Type} [DecidableEq σ] (d : DFA σ) (P : List (List σ))
    (n : DFA Nat) : DFA Nat :=
  d.states.foldl
    (fun acc q => d.alphabet.foldl (fun acc2 a => copyStep d P acc2 q a) acc)
    n

/-- The (state, symbol) pairs enumerated by the nested transition-copying
loops of `minimize`, flattened into one list. -/
def statePairs {σ : Type} (d : DFA σ) : List (σ × Char) :=
  d.states.flatMap (fun q => d.alphabet.map (fun c => (q, c)))

/-- `minimize()` from `src/dfa.py`: Hopcroft-style partition refinement and
quotient construction.  Returns `none` when Python would raise a `KeyError`
on `mapping[self.start_state]` (start unset or not covered by a block). -/
def minimize {σ : Type} [DecidableEq σ] (d : DFA σ) : Option (DFA Nat) :=
  match d.start_state with
  | none => none
  | some s0 =>
    let P0 : List (List σ) :=
      [d.accepting_states, d.states.filter (fun q => q ∉ d.accepting_states)]
    let W0 : List (List σ) := [d.accepting_states]
    let Pf := hopcroftLoop d (3 * d.states.length + 4) P0 W0
    match findBlockIdx Pf s0 with
    | none => none
    | some i0 =>
      let base : DFA Nat := DFA.init d.alphabet
      let n1 := Pf.enum.foldl (fun a ib => addBlockStates d.accepting_states a ib) base
      let n2 := set_start n1 i0
      some (copyTransitions d Pf n2)

/-- Python membership `s in accepting_states` where `s` may be `None`. -/
def memOpt {σ : Type} [DecidableEq σ] (s : Option σ) (l : List σ) : Bool :=
  match s with
  | some v => decide (v ∈ l)
  | none => false

/-- `self.step(s, a)` where `s` may be Python `None` (then the dictionary
lookup misses and yields `None`). -/
def stepOpt {σ : Type} [DecidableEq σ] (d : DFA σ) (s : Option σ) (a : Char) : Option σ :=
  match s with
  | some v => step d v a
  | none => none

/-- The `while queue:` loop of `product` from `src/dfa.py`.  The loop state is
`(prod, queue, visited)`; the popped pair is registered with
`prod.add_state((s1, s2), accepting=disagree)` — a keyword call that Python
rejects, reproduced by `add_state_call_kw`. -/
def product_loop {σ τ : Type} [DecidableEq σ] [DecidableEq τ] (d1 : DFA σ) (d2 : DFA τ) :
    Nat →
    DFA (Option σ × Option τ) × List (Option σ × Option τ) × List (Option σ × Option τ) →
    Except String (DFA (Option σ × Option τ))
  | 0, st => Except.ok st.1
  | fuel + 1, (prod, queue, visited) =>
    match queue with
    | [] => Except.ok prod
    | (s1, s2) :: rest =>
      let disagree := memOpt s1 d1.accepting_states != memOpt s2 d2.accepting_states
      match add_state_call_kw prod (s1, s2) "accepting" disagree with
      | Except.error e => Except.error e
      | Except.ok prod1 =>
        match
          d1.alphabet.foldlM
            (fun (st : DFA (Option σ × Option τ) × List (Option σ × Option τ) ×
                List (Option σ × Option τ)) a =>
              match stepOpt d1 s1 a, stepOpt d2 s2 a with
              | some n1, some n2 =>
                let nxt : Option σ × Option τ := (some n1, some n2)
                match add_transition st.1 (s1, s2) a nxt with
                | Except.error e => Except.error e
                | Except.ok p2 =>
                  if nxt ∈ st.2.2 then Except.ok (p2, st.2.1, st.2.2)
                  else Except.ok (p2, st.2.1 ++ [nxt], st.2.2 ++ [nxt])
              | _, _ => Except.ok st)
            (prod1, rest, visited) with
        | Except.error e => Except.error e
        | Except.ok st2 => product_loop d1 d2 fuel st2

/-- `product(other)` from `src/dfa.py`: synchronized product with
symmetric-difference acceptance, explored breadth-first.  The state values
are pairs whose components are the raw Python values (possibly `None`, as in
`(self.start_state, other.start_state)` before any start is set). -/
def product {σ τ : Type} [DecidableEq σ] [DecidableEq τ] (d1 : DFA σ) (d2 : DFA τ) :
    Except String (DFA (Option σ × Option τ)) :=
  let start : Option σ × Option τ := (d1.start_state, d2.start_state)
  let prod1 := set_start (DFA.init d1.alphabet) start
  product_loop d1 d2 ((d1.states.length + 1) * (d2.states.length + 1) + 1)
    (prod1, [start], [start])

/-- The breadth-first reachability loop of `is_equivalent`: queue elements are
the raw Python values (the start value is pushed as-is; `None` successors are
skipped by the truthiness test `if nxt and ...`). -/
def equiv_bfs {π : Type} [DecidableEq π] (prod : DFA π) :
    Nat → List (Option π) → List (Option π) → Bool
  | 0, _, _ => true
  | fuel + 1, queue, visited =>
    match queue with
    | [] => true
    | q :: rest =>
      if memOpt q prod.accepting_states then false
      else
        let upd :=
          prod.alphabet.foldl
            (fun (st : List (Option π) × List (Option π)) a =>
              match stepOpt prod q a with
              | none => st
              | some v =>
                if (some v) ∈ st.2 then st else (st.1 ++ [some v], st.2 ++ [some v]))
            (rest, visited)
        equiv_bfs prod fuel upd.1 upd.2

/-- `is_equivalent(other)` from `src/dfa.py`: build the product, then search
its reachable states for an accepting (disagreement) state. -/
def is_equivalent {σ τ : Type} [DecidableEq σ] [DecidableEq τ] (d1 : DFA σ) (d2 : DFA τ) :
    Except String Bool :=
  match product d1 d2 with
  | Except.error e => Except.error e
  | Except.ok prod =>
    Except.ok (equiv_bfs prod (prod.states.length + 2) [prod.start_state] [prod.start_state])

/-- A decision-tree node from `src/decision_tree.py` / `src/tree_to_dfa.py`:
a node with `value is not None` is a leaf; an internal node carries a feature
name, a numeric threshold and two children. -/
inductive Node where
  | leaf (value : Bool)
  | node (feature : String) (threshold : Int) (left : Node) (right : Node)

/-- Lookup in a feature dictionary (`features[name]`, `None` meaning `KeyError`). -/
def flookup (feats : List (String × Int)) (name : String) : Option Int :=
  (feats.find? (fun e => e.1 = name)).map (fun e => e.2)

/-- `predict_tree(node, features)` from `src/tree_to_dfa.py`: iterative descent;
a missing feature raises `KeyError`. -/
def predict_tree : Node → List (String × Int) → Except String Bool
  | Node.leaf v, _ => Except.ok v
  | Node.node f thr l r, feats =>
    match flookup feats f with
    | none => Except.error ("KeyError: " ++ f)
    | some val => if val ≤ thr then predict_tree l feats else predict_tree r feats

/-- The primitive-state dictionary of `src/tree_to_dfa.py` (fixed key set,
integer and optional-character values).  `primitive_key` tuples all ten
fields, so two primitive states are identified exactly when the structures
are equal. -/
structure PrimState where
  length : Nat
  a_count : Nat
  b_count : Nat
  first_char : Option Char
  prev_char : Option Char
  last_char : Option Char
  has_aa : Nat
  has_ab : Nat
  has_ba : Nat
  has_bb : Nat
deriving DecidableEq, Repr

/-- `initial_primitive_state()` from `src/tree_to_dfa.py`. -/
def initial_primitive_state : PrimState :=
  ⟨0, 0, 0, none, none, none, 0, 0, 0, 0⟩

/-- `update_primitive_state(state, symbol)` from `src/tree_to_dfa.py`, as the
value-level function it computes (a fresh dictionary; the aliasing behaviour
of the source is modelled separately by `update_primitive_state_store`). -/
def update_primitive_state (state : PrimState) (symbol : Char) : PrimState :=
  let length := state.length + 1
  let first_char := if length = 1 then some symbol else state.first_char
  let a_count := if symbol = 'a' then state.a_count + 1 else state.a_count
  let b_count := if symbol = 'a' then state.b_count else state.b_count + 1
  let prev_char := state.last_char
  let pairFlags :=
    match state.last_char with
    | none => (state.has_aa, state.has_ab, state.has_ba, state.has_bb)
    | some last =>
      if last = 'a' ∧ symbol = 'a' then (1, state.has_ab, state.has_ba, state.has_bb)
      else if last = 'a' ∧ symbol = 'b' then (state.has_aa, 1, state.has_ba, state.has_bb)
      else if last = 'b' ∧ symbol = 'a' then (state.has_aa, state.has_ab, 1, state.has_bb)
      else if last = 'b' ∧ symbol = 'b' then (state.has_aa, state.has_ab, state.has_ba, 1)
      else (state.has_aa, state.has_ab, state.has_ba, state.has_bb)
  ⟨length, a_count, b_count, first_char, prev_char, some symbol,
    pairFlags.1, pairFlags.2.1, pairFlags.2.2.1, pairFlags.2.2.2⟩

/-- `features_from_primitive_state(state)` from `src/tree_to_dfa.py`:
the reconstructed feature dictionary, in construction order. -/
def features_from_primitive_state (state : PrimState) : List (String × Int) :=
  let length : Int := Int.ofNat state.length
  let a_count : Int := Int.ofNat state.a_count
  let b_count : Int := Int.ofNat state.b_count
  [("length", length),
   ("length_mod2", length % 2),
   ("length_mod3", length % 3),
   ("a_count", a_count),
   ("b_count", b_count),
   ("a_parity", a_count % 2),
   ("b_parity", b_count % 2),
   ("a_mod3", a_count % 3),
   ("b_mod3", b_count % 3),
   ("starts_with_a", if state.first_char = some 'a' then 1 else 0),
   ("starts_with_b", if state.first_char = some 'b' then 1 else 0),
   ("ends_with_a", if state.last_char = some 'a' then 1 else 0),
   ("ends_with_b", if state.last_char = some 'b' then 1 else 0),
   ("has_aa", Int.ofNat state.has_aa),
   ("has_ab", Int.ofNat state.has_ab),
   ("has_ba", Int.ofNat state.has_ba),
   ("has_bb", Int.ofNat state.has_bb),
   ("ends_with_aa",
     match state.prev_char, state.last_char with
     | some p, some l => if p = 'a' ∧ l = 'a' then 1 else 0
     | _, _ => 0),
   ("ends_with_ab",
     match state.prev_char, state.last_char with
     | some p, some l => if p = 'a' ∧ l = 'b' then 1 else 0
     | _, _ => 0),
   ("ends_with_ba",
     match state.prev_char, state.last_char with
     | some p, some l => if p = 'b' ∧ l = 'a' then 1 else 0
     | _, _ => 0),
   ("ends_with_bb",
     match state.prev_char, state.last_char with
     | some p, some l => if p = 'b' ∧ l = 'b' then 1 else 0
     | _, _ => 0),
   ("more_a_than_b", if b_count < a_count then 1 else 0),
   ("equal_a_b", if a_count = b_count then 1 else 0)]

/-- The mutable closure state of `tree_to_dfa`: the automaton being built,
the `primitive_key -> state_id` map, the BFS queue, and `next_id`. -/
structure TtdCtx where
  dfa : DFA Nat
  state_map : List (PrimState × Nat)
  queue : List PrimState
  next_id : Nat

/-- `state_map[primitive_key(state)]` lookup. -/
def lookupPrim (m : List (PrimState × Nat)) (st : PrimState) : Option Nat :=
  (m.find? (fun e => e.1 = st)).map (fun e => e.2)

/-- `ensure_state(state)` from `src/tree_to_dfa.py`: dedup by primitive key,
allocate a fresh id, classify by the decision tree, register the state with
`dfa.add_state(sid, accepting=is_accepting)` (the faulty keyword call), and
enqueue the new state. -/
def ensure_state (root : Node) (ctx : TtdCtx) (st : PrimState) :
    Except String (TtdCtx × Nat) :=
  match lookupPrim ctx.state_map st with
  | some sid => Except.ok (ctx, sid)
  | none =>
    match predict_tree root (features_from_primitive_state st) with
    | Except.error e => Except.error e
    | Except.ok is_accepting =>
      match add_state_call_kw ctx.dfa ctx.next_id "accepting" is_accepting with
      | Except.error e => Except.error e
      | Except.ok d' =>
        Except.ok ({ dfa := d', state_map := ctx.state_map ++ [(st, ctx.next_id)], queue := ctx.queue ++ [st], next_id := ctx.next_id + 1 }, ctx.next_id)

/-- The `while queue:` BFS of `tree_to_dfa`: expand each dequeued primitive
state by every alphabet symbol, unless its length has reached `max_len`. -/
def ttd_loop (root : Node) (alphabet : List Char) (max_len : Nat) :
    Nat → TtdCtx → Except String (DFA Nat)
  | 0, ctx => Except.ok ctx.dfa
  | fuel + 1, ctx =>
    match ctx.queue with
    | [] => Except.ok ctx.dfa
    | st :: rest =>
      let ctx1 : TtdCtx := { ctx with queue := rest }
      match lookupPrim ctx1.state_map st with
      | none => Except.error "KeyError: primitive_key"
      | some sid =>
        if max_len ≤ st.length then ttd_loop root alphabet max_len fuel ctx1
        else
          match
            alphabet.foldlM
              (fun (c : TtdCtx) sym =>
                let new_state := update_primitive_state st sym
                match ensure_state root c new_state with
                | Except.error e => Except.error e
                | Except.ok (c2, nid) =>
                  match add_transition c2.dfa sid sym nid with
                  | Except.error e => Except.error e
                  | Except.ok d' => Except.ok { c2 with dfa := d' })
              ctx1 with
          | Except.error e => Except.error e
          | Except.ok ctx2 => ttd_loop root alphabet max_len fuel ctx2

/-- `tree_to_dfa(root, max_len, alphabet)` from `src/tree_to_dfa.py`. -/
def tree_to_dfa (root : Node) (max_len : Nat) (alphabet : List Char) :
    Except String (DFA Nat) :=
  match ensure_state root ⟨DFA.init alphabet, [], [], 0⟩ initial_primitive_state with
  | Except.error e => Except.error e
  | Except.ok (ctx1, start_id) =>
    ttd_loop root alphabet max_len ((alphabet.length + 2) ^ (2 * max_len + 8))
      { ctx1 with dfa := set_start ctx1.dfa start_id }

/-! ### Reference-semantics model of `update_primitive_state`

Python dictionaries are heap references.  To state the frame/no-mutation
claim about `update_primitive_state` we model a heap of primitive-state
dictionaries addressed by natural numbers; `dict(state)` allocates a fresh
cell holding a copy, and every subsequent `new[...] = ...` statement is a
write to that fresh cell. -/

/-- A heap of primitive-state dictionaries; the address is the index. -/
abbrev Store : Type := List PrimState

/-- Heap read. -/
def store_get (h : Store) (r : Nat) : Option PrimState :=
  h[r]?

/-- In-place update of one field of the cell at `r` (a `new[k] = v` statement). -/
def modifyCell (h : Store) (r : Nat) (f : PrimState → PrimState) : Store :=
  match h[r]? with
  | none => h
  | some v => List.set h r (f v)

/-- `update_primitive_state(state, symbol)` with reference semantics:
`state` is a heap address; `new = dict(state)` allocates a fresh cell, and
each assignment of the source body is a write to that cell.  Returns the
new heap and the address of the result, or `none` for a dangling argument. -/
def update_primitive_state_store (h : Store) (r : Nat) (symbol : Char) :
    Option (Store × Nat) :=
  match store_get h r with
  | none => none
  | some state =>
    let addr := h.length
    let h1 : Store := h ++ [state]
    let h2 := modifyCell h1 addr (fun n => { n with length := n.length + 1 })
    let h3 := modifyCell h2 addr (fun n =>
      if n.length = 1 then { n with first_char := some symbol } else n)
    let h4 := modifyCell h3 addr (fun n =>
      if symbol = 'a' then { n with a_count := n.a_count + 1 }
      else { n with b_count := n.b_count + 1 })
    let h5 := modifyCell h4 addr (fun n => { n with prev_char := n.last_char })
    let h6 := modifyCell h5 addr (fun n =>
      match n.last_char with
      | none => n
      | some last =>
        if last = 'a' ∧ symbol = 'a' then { n with has_aa := 1 }
        else if last = 'a' ∧ symbol = 'b' then { n with has_ab := 1 }
        else if last = 'b' ∧ symbol = 'a' then { n with has_ba := 1 }
        else if last = 'b' ∧ symbol = 'b' then { n with has_bb := 1 }
        else n)
    let h7 := modifyCell h6 addr (fun n => { n with last_char := some symbol })
    some (h7, addr)

/-! ### Specification-side predicates -/

/-- Iterated `step` from a given state (no short-circuit): the run of the
automaton on a word, `none` when a transition is missing. -/
def runFrom {σ : Type} [DecidableEq σ] (d : DFA σ) : σ → List Char → Option σ
  | s, [] => some s
  | s, a :: w =>
    match step d s a with
    | none => none
    | some t => runFrom d t w

/-- Well-formedness maintained by the `DFA` mutation API: duplicate-free
state and accepting lists, accepting states and transition endpoints drawn
from `states`, transition symbols drawn from the alphabet, and
duplicate-free transition keys. -/
def WF {σ : Type} [DecidableEq σ] (d : DFA σ) : Prop :=
  d.states.Nodup ∧ d.accepting_states.Nodup ∧
  (∀ s ∈ d.accepting_states, s ∈ d.states) ∧
  (d.transitions.map (fun e => e.1)).Nodup ∧
  (∀ e ∈ d.transitions, e.1.1 ∈ d.states ∧ e.2 ∈ d.states ∧ e.1.2 ∈ d.alphabet)

/-- Totality over the alphabet: every state has a transition on every
alphabet symbol. -/
def TotalD {σ : Type} [DecidableEq σ] (d : DFA σ) : Prop :=
  ∀ q ∈ d.states, ∀ c ∈ d.alphabet, (step d q c).isSome = true

/-- All symbols of a word belong to the given alphabet. -/
def word_ok (alph : List Char) (w : List Char) : Prop :=
  ∀ c ∈ w, c ∈ alph

/-- Acceptance from an explicit state. -/
def accepts_st {σ : Type} [DecidableEq σ] (d : DFA σ) (q : σ) (w : List Char) : Bool :=
  accepts_from d (some q) w

/-- Behavioural equivalence of two states over words from the alphabet. -/
def LangEq {σ : Type} [DecidableEq σ] (d : DFA σ) (q q' : σ) : Prop :=
  ∀ w, word_ok d.alphabet w → accepts_st d q w = accepts_st d q' w

/-- The invariant of the `DFA` data structure claimed by the spec: every
state referenced by the accepting set or by the transition table belongs to
`states`. -/
def StatesInv {σ : Type} [DecidableEq σ] (d : DFA σ) : Prop :=
  (∀ s ∈ d.accepting_states, s ∈ d.states) ∧
  (∀ e ∈ d.transitions, e.1.1 ∈ d.states ∧ e.2 ∈ d.states)

/-- A list viewed as a set of states. -/
def lset {σ : Type} (A : List σ) : Set σ :=
  {q | q ∈ A}

/-- Semantic preimage of a set of states under the `c`-transition. -/
def preSet {σ : Type} [DecidableEq σ] (d : DFA σ) (c : Char) (S : Set σ) : Set σ :=
  {q | ∃ t, step d q c = some t ∧ t ∈ S}

/-- A partition (list of blocks) is stable with respect to a splitter set:
each block lies inside or outside its preimage. -/
def StableWrt {σ : Type} [DecidableEq σ] (d : DFA σ) (P : List (List σ)) (c : Char)
    (S : Set σ) : Prop :=
  ∀ B ∈ P, (∀ q ∈ B, q ∈ preSet d c S) ∨ (∀ q ∈ B, q ∉ preSet d c S)

/-- Sets with respect to which the refinement loop still owes stability:
either already stable, or pending on the worklist, or a Boolean combination
of such sets.  With an empty worklist every covered set is stable. -/
inductive Cov {σ : Type} [DecidableEq σ] (d : DFA σ) (P W : List (List σ)) (c : Char) :
    Set σ → Prop where
  | stable {S : Set σ} : StableWrt d P c S → Cov d P W c S
  | pending {A : List σ} : A ∈ W → Cov d P W c (lset A)
  | sdiff {S T : Set σ} : Cov d P W c S → Cov d P W c T → Cov d P W c (S \ T)
  | union {S T : Set σ} : Cov d P W c S → Cov d P W c T → Cov d P W c (S ∪ T)

/-- A list is a union of blocks of the partition `P`. -/
def isBlockUnion {σ : Type} (P : List (List σ)) (A : List σ) : Prop :=
  ∀ q ∈ A, ∃ B ∈ P, q ∈ B ∧ ∀ x ∈ B, x ∈ A

/-- Basic partition shape: blocks are duplicate-free subsets of the state
set, pairwise disjoint, covering all states, with at most two empty blocks
(the two initial blocks may be empty; splits only create nonempty blocks). -/
def PartInv {σ : Type} [DecidableEq σ] (d : DFA σ) (P : List (List σ)) : Prop :=
  (∀ B ∈ P, B.Nodup ∧ ∀ q ∈ B, q ∈ d.states) ∧
  List.Pairwise (fun B C => ∀ q, q ∈ B → q ∉ C) P ∧
  (∀ q ∈ d.states, ∃ B ∈ P, q ∈ B) ∧
  (P.filter (fun B => B.isEmpty)).length ≤ 2

/-- Acceptance-homogeneity of the blocks. -/
def Homog {σ : Type} [DecidableEq σ] (d : DFA σ) (P : List (List σ)) : Prop :=
  ∀ B ∈ P, (∀ q ∈ B, q ∈ d.accepting_states) ∨ (∀ q ∈ B, q ∉ d.accepting_states)

/-- A set of states closed under behavioural equivalence. -/
def SatSet {σ : Type} [DecidableEq σ] (d : DFA σ) (A : List σ) : Prop :=
  ∀ t ∈ A, ∀ t' ∈ d.states, LangEq d t t' → t' ∈ A

/-- Saturation of all blocks. -/
def SatInv {σ : Type} [DecidableEq σ] (d : DFA σ) (P : List (List σ)) : Prop :=
  ∀ B ∈ P, SatSet d B

/-- The full loop invariant of the refinement loop of `minimize`. -/
def HopInv {σ : Type} [DecidableEq σ] (d : DFA σ) (P W : List (List σ)) : Prop :=
  PartInv d P ∧ Homog d P ∧ SatInv d P ∧ (∀ A ∈ W, isBlockUnion P A) ∧
  (∀ c ∈ d.alphabet, ∀ B ∈ P, Cov d P W c (lset B))

/-- One partition refines another (blockwise inclusion). -/
def Refines {σ : Type} (P2 P : List (List σ)) : Prop :=
  ∀ B2 ∈ P2, ∃ B ∈ P, lset B2 ⊆ lset B

/-- Closed form of the partition produced by one `splitPass` with preimage
`X`: each block either splits into its intersection and difference with `X`
(both nonempty) or is kept. -/
def splitBlocks {σ : Type} [DecidableEq σ] (X : List σ) (P : List (List σ)) :
    List (List σ) :=
  P.flatMap (fun Y =>
    if Y.filter (fun q => q ∈ X) ≠ [] ∧ Y.filter (fun q => q ∉ X) ≠ [] then
      [Y.filter (fun q => q ∈ X), Y.filter (fun q => q ∉ X)]
    else [Y])

/-- The invariant carried through the per-symbol passes of one iteration of
the refinement loop: the popped splitter `A` is still virtually pending for
the symbols `cs` not yet processed. -/
def BodyInv {σ : Type} [DecidableEq σ] (d : DFA σ) (A : List σ) (cs : List Char)
    (P W : List (List σ)) : Prop :=
  PartInv d P ∧ Homog d P ∧ SatInv d P ∧ (∀ B ∈ W, isBlockUnion P B) ∧
  (∀ c ∈ d.alphabet, ∀ B ∈ P, Cov d P (if c ∈ cs then A :: W else W) c (lset B))

/-- Termination measure of the refinement loop: every iteration strictly
decreases it (a split trades one worklist entry for at most one more while
growing the partition). -/
def hopMeasure {σ : Type} [DecidableEq σ] (d : DFA σ) (P W : List (List σ)) : Nat :=
  3 * (d.states.length + 2 - P.length) + W.length

/-- Whether an `Except` value is a success. -/
def exceptIsOk {ε α : Type} : Except ε α → Bool
  | Except.ok _ => true
  | Except.error _ => false

/-! ### Concrete automata used by counterexamples and witnesses -/

/-- A partial three-state automaton: `1 -a-> 2`, `1 -b-> 0`, `2 -b-> 0`,
start `1`, accepting `{0}`.  Its language is `{b, ab}`, but minimization
merges `1` and `2` (the complement trick of the splitter bookkeeping is
unsound for partial automata), and the quotient accepts `aab`. -/
def cexA : DFA Nat :=
  { alphabet := ['a', 'b'], states := [0, 1, 2], start_state := some 1,
    accepting_states := [0],
    transitions := [((1, 'a'), 2), ((1, 'b'), 0), ((2, 'b'), 0)] }

/-- A partial five-state automaton on which minimization is not idempotent:
`minimize` yields four states, minimizing again yields three. -/
def cexC7 : DFA Nat :=
  { alphabet := ['a', 'b'], states := [0, 1, 2, 3, 4], start_state := some 0,
    accepting_states := [3],
    transitions := [((0, 'a'), 0), ((0, 'b'), 1), ((1, 'a'), 3), ((2, 'b'), 1),
      ((3, 'a'), 3), ((3, 'b'), 0), ((4, 'a'), 3), ((4, 'b'), 4)] }

/-- The total two-state automaton for "even number of `a`" (the language
module builds it in the repository; here it is used as a concrete witness
input for the minimization theorems). -/
def evenA : DFA Nat :=
  { alphabet := ['a', 'b'], states := [0, 1], start_state := some 0,
    accepting_states := [0],
    transitions := [((0, 'a'), 1), ((1, 'a'), 0), ((0, 'b'), 0), ((1, 'b'), 1)] }

/-- An automaton with an accepting state and a transition on it but no start
state: used to exhibit the behaviour of `accepts` before `set_start`. -/
def noStartD : DFA Nat :=
  { alphabet := ['a', 'b'], states := [0], start_state := none,
    accepting_states := [0], transitions := [((0, 'a'), 0)] }

/-! ## Helper lemmas -/

theorem mem_insertS {σ : Type} [DecidableEq σ] {l : List σ} {s x : σ} :
    x ∈ insertS l s ↔ x ∈ l ∨ x = s := by
  unfold insertS
  by_cases h : s ∈ l
  · simp only [h, if_pos]
    constructor
    · exact fun hx => Or.inl hx
    · rintro (hx | rfl) <;> [exact hx; exact h]
  · simp [h, List.mem_append]

theorem self_mem_insertS {σ : Type} [DecidableEq σ] (l : List σ) (s : σ) :
    s ∈ insertS l s := by
  rw [mem_insertS]; exact Or.inr rfl

theorem insertS_subset {σ : Type} [DecidableEq σ] {l : List σ} (s : σ) {x : σ}
    (h : x ∈ l) : x ∈ insertS l s := by
  rw [mem_insertS]; exact Or.inl h

theorem nodup_insertS {σ : Type} [DecidableEq σ] {l : List σ} (h : l.Nodup) (s : σ) :
    (insertS l s).Nodup := by
  unfold insertS
  by_cases hs : s ∈ l
  · simpa [hs]
  · simp only [hs, if_neg, not_false_iff]
    refine List.Nodup.append h (List.nodup_singleton s) ?_
    intro a hal has
    exact hs (List.mem_singleton.mp has ▸ hal)

theorem tlookup_cons {σ : Type} [DecidableEq σ] (x : (σ × Char) × σ)
    (xs : List ((σ × Char) × σ)) (p : σ) (c' : Char) :
    tlookup (x :: xs) p c' = if x.1 = (p, c') then some x.2 else tlookup xs p c' := by
  by_cases h : x.1 = (p, c')
  · simp [tlookup, List.find?, h]
  · simp [tlookup, List.find?, h]

theorem tlookup_map_replace {σ : Type} [DecidableEq σ] (t : List ((σ × Char) × σ))
    {q p : σ} {c c' : Char} (v : σ) (hne : (p, c') ≠ (q, c)) :
    tlookup (t.map (fun e => if e.1 = (q, c) then ((q, c), v) else e)) p c' =
      tlookup t p c' := by
  induction t with
  | nil => rfl
  | cons e es ih =>
    by_cases he : e.1 = (q, c)
    · rw [List.map_cons, if_pos he, tlookup_cons, tlookup_cons]
      have hqp : ¬(((q, c), v) : (σ × Char) × σ).1 = (p, c') := fun hh => hne hh.symm
      have hep : ¬ e.1 = (p, c') := by rw [he]; exact fun hh => hne hh.symm
      rw [if_neg hqp, if_neg hep]
      exact ih
    · rw [List.map_cons, if_neg he, tlookup_cons, tlookup_cons]
      by_cases h2 : e.1 = (p, c')
      · rw [if_pos h2, if_pos h2]
      · rw [if_neg h2, if_neg h2]
        exact ih

theorem tlookup_append_one {σ : Type} [DecidableEq σ] (t : List ((σ × Char) × σ))
    {q p : σ} {c c' : Char} (v : σ) (hne : (p, c') ≠ (q, c)) :
    tlookup (t ++ [((q, c), v)]) p c' = tlookup t p c' := by
  induction t with
  | nil =>
    have hqp : ¬(((q, c), v) : (σ × Char) × σ).1 = (p, c') := fun hh => hne hh.symm
    rw [List.nil_append, tlookup_cons, if_neg hqp]
  | cons e es ih =>
    rw [List.cons_append, tlookup_cons, tlookup_cons]
    by_cases h2 : e.1 = (p, c')
    · rw [if_pos h2, if_pos h2]
    · rw [if_neg h2, if_neg h2]
      exact ih

theorem tlookup_tupdate_other {σ : Type} [DecidableEq σ] (t : List ((σ × Char) × σ))
    {q p : σ} {c c' : Char} (v : σ) (hne : (p, c') ≠ (q, c)) :
    tlookup (tupdate t q c v) p c' = tlookup t p c' := by
  unfold tupdate
  by_cases h : (t.find? (fun e => e.1 = (q, c))).isSome
  · simp only [h, if_pos]
    exact tlookup_map_replace t v hne
  · simp only [h, if_neg, not_false_iff]
    exact tlookup_append_one t v hne

theorem tlookup_map_replace_self {σ : Type} [DecidableEq σ]
    {t : List ((σ × Char) × σ)} {q : σ} {c : Char} (v : σ)
    (h : (t.find? (fun e => e.1 = (q, c))).isSome = true) :
    tlookup (t.map (fun e => if e.1 = (q, c) then ((q, c), v) else e)) q c = some v := by
  induction t with
  | nil => simp at h
  | cons e es ih =>
    by_cases he : e.1 = (q, c)
    · rw [List.map_cons, if_pos he, tlookup_cons, if_pos rfl]
    · rw [List.map_cons, if_neg he, tlookup_cons, if_neg he]
      have h' : (es.find? (fun e => e.1 = (q, c))).isSome = true := by
        simpa [List.find?, he] using h
      exact ih h'

theorem tlookup_append_self {σ : Type} [DecidableEq σ]
    {t : List ((σ × Char) × σ)} {q : σ} {c : Char} (v : σ)
    (h : ¬(t.find? (fun e => e.1 = (q, c))).isSome = true) :
    tlookup (t ++ [((q, c), v)]) q c = some v := by
  induction t with
  | nil => rw [List.nil_append, tlookup_cons, if_pos rfl]
  | cons e es ih =>
    by_cases he : e.1 = (q, c)
    · exact absurd (by simp [List.find?, he]) h
    · rw [List.cons_append, tlookup_cons, if_neg he]
      have h' : ¬(es.find? (fun e => e.1 = (q, c))).isSome = true := by
        simpa [List.find?, he] using h
      exact ih h'

theorem tlookup_tupdate_self {σ : Type} [DecidableEq σ] (t : List ((σ × Char) × σ))
    (q : σ) (c : Char) (v : σ) : tlookup (tupdate t q c v) q c = some v := by
  unfold tupdate
  by_cases h : (t.find? (fun e => e.1 = (q, c))).isSome
  · simp only [h, if_pos]
    exact tlookup_map_replace_self v h
  · simp only [h, if_neg, not_false_iff]
    exact tlookup_append_self v h

theorem mem_tupdate {σ : Type} [DecidableEq σ] {t : List ((σ × Char) × σ)}
    {q : σ} {c : Char} {v : σ} {e : (σ × Char) × σ} (h : e ∈ tupdate t q c v) :
    e ∈ t ∨ e = ((q, c), v) := by
  unfold tupdate at h
  by_cases hf : (t.find? (fun e => e.1 = (q, c))).isSome
  · rw [if_pos hf] at h
    obtain ⟨x, hx, hfx⟩ := List.mem_map.mp h
    by_cases hx1 : x.1 = (q, c)
    · right; rw [← hfx, if_pos hx1]
    · left; rw [← hfx, if_neg hx1]; exact hx
  · rw [if_neg hf] at h
    rcases List.mem_append.mp h with h1 | h1
    · exact Or.inl h1
    · exact Or.inr (List.mem_singleton.mp h1)

theorem accepts_from_eq_runFrom {σ : Type} [DecidableEq σ] (d : DFA σ) (w : List Char)
    (s : σ) :
    accepts_from d (some s) w =
      (match runFrom d s w with
       | none => false
       | some t => decide (t ∈ d.accepting_states)) := by
  induction w generalizing s with
  | nil => rfl
  | cons a w ih =>
    cases h : step d s a with
    | none => simp [accepts_from, runFrom, h]
    | some t => simp only [accepts_from, runFrom, h]; exact ih t

theorem ensure_state_fresh_error (root : Node) (ctx : TtdCtx) (st : PrimState)
    (h : lookupPrim ctx.state_map st = none) :
    ∃ e, ensure_state root ctx st = Except.error e := by
  unfold ensure_state
  rw [h]
  cases hp : predict_tree root (features_from_primitive_state st) with
  | error e => exact ⟨e, rfl⟩
  | ok b =>
    exact ⟨"TypeError: add_state() got an unexpected keyword argument accepting", rfl⟩

theorem add_state_kw_accepting_error {σ : Type} [DecidableEq σ] (d : DFA σ) (s : σ)
    (v : Bool) :
    add_state_call_kw d s "accepting" v =
      Except.error "TypeError: add_state() got an unexpected keyword argument accepting" :=
  rfl

theorem product_error {σ τ : Type} [DecidableEq σ] [DecidableEq τ] (d1 : DFA σ)
    (d2 : DFA τ) :
    product d1 d2 =
      Except.error "TypeError: add_state() got an unexpected keyword argument accepting" :=
  rfl

/-! ## Claim theorems -/

/-- C1 (code bug): `tree_to_dfa` raises for every tree, bound and alphabet
instead of returning an automaton: its first `ensure_state` call runs
`dfa.add_state(sid, accepting=is_accepting)`, but `add_state` in `dfa.py`
has no parameter named `accepting`, so Python raises `TypeError` at the
call (for a tree whose root tests a feature missing from the feature
dictionary, a `KeyError` from `predict_tree` is raised even earlier). -/
theorem C1_tree_to_dfa_raises (root : Node) (max_len : Nat) (alphabet : List Char) :
    ∃ e, tree_to_dfa root max_len alphabet = Except.error e := by
  obtain ⟨e, he⟩ :=
    ensure_state_fresh_error root ⟨DFA.init alphabet, [], [], 0⟩ initial_primitive_state rfl
  refine ⟨e, ?_⟩
  unfold tree_to_dfa
  rw [he]

/-- C3 (code bug): `product` raises `TypeError` for every pair of automata
instead of building the symmetric-difference product: the registration of
the first dequeued pair calls `prod.add_state((s1, s2), accepting=disagree)`
with a keyword `add_state` does not declare. -/
theorem C3_product_raises {σ τ : Type} [DecidableEq σ] [DecidableEq τ] (d1 : DFA σ)
    (d2 : DFA τ) :
    product d1 d2 =
      Except.error "TypeError: add_state() got an unexpected keyword argument accepting" :=
  product_error d1 d2

/-- C4 (code bug): `is_equivalent` raises `TypeError` for every pair of
automata (the `product` call it starts with raises), so in particular the
even-a versus odd-a comparison raises instead of returning `False`, and the
self-comparison with the minimized automaton raises instead of returning
`True`. -/
theorem C4_is_equivalent_raises {σ τ : Type} [DecidableEq σ] [DecidableEq τ]
    (d1 : DFA σ) (d2 : DFA τ) :
    is_equivalent d1 d2 =
      Except.error "TypeError: add_state() got an unexpected keyword argument accepting" := by
  unfold is_equivalent
  rw [product_error]

/-- C5: `accepts` runs `step` over the word from the start state, returns
false as soon as a transition is missing, otherwise accepts exactly when the
final state is accepting; the empty word is accepted iff the start state is
accepting. -/
theorem C5_accepts_spec {σ : Type} [DecidableEq σ] (d : DFA σ) (s0 : σ)
    (h : d.start_state = some s0) :
    (∀ w, accepts d w =
      (match runFrom d s0 w with
       | none => false
       | some t => decide (t ∈ d.accepting_states))) ∧
    (accepts d [] = true ↔ s0 ∈ d.accepting_states) := by
  constructor
  · intro w
    rw [accepts, h]
    exact accepts_from_eq_runFrom d w s0
  · rw [accepts, h]
    simp [accepts_from]

/-- C5 witness: the characterization evaluated on the concrete even-a
automaton and the word `aba`. -/
theorem C5_accepts_spec_witness :
    accepts evenA ['a', 'b', 'a'] =
      (match runFrom evenA 0 ['a', 'b', 'a'] with
       | none => false
       | some t => decide (t ∈ evenA.accepting_states)) :=
  (C5_accepts_spec evenA 0 rfl).1 ['a', 'b', 'a']

/-- C6: `add_transition` errors exactly on symbols outside the configured
alphabet (returning no modified automaton — the check precedes every
mutation in the source), and on success inserts both endpoints into the
state set and records the transition, overwriting any previous target of
the same (state, symbol) pair and leaving all other transitions, the
accepting set, the start state and the alphabet unchanged. -/
theorem C6_add_transition_spec {σ : Type} [DecidableEq σ] (d : DFA σ) (q : σ)
    (a : Char) (q' : σ) :
    (exceptIsOk (add_transition d q a q') = false ↔ a ∉ d.alphabet) ∧
    (∀ r, add_transition d q a q' = Except.ok r →
      q ∈ r.states ∧ q' ∈ r.states ∧ step r q a = some q' ∧
      (∀ p c, (p, c) ≠ (q, a) → step r p c = step d p c) ∧
      r.accepting_states = d.accepting_states ∧ r.start_state = d.start_state ∧
      r.alphabet = d.alphabet) := by
  constructor
  · unfold add_transition
    by_cases h : a ∈ d.alphabet
    · simp [h, exceptIsOk]
    · simp [h, exceptIsOk]
  · intro r hr
    unfold add_transition at hr
    by_cases h : a ∈ d.alphabet
    · rw [if_pos h] at hr
      injection hr with hr
      subst hr
      refine ⟨insertS_subset _ (self_mem_insertS _ _), self_mem_insertS _ _, ?_, ?_, rfl, rfl, rfl⟩
      · exact tlookup_tupdate_self _ _ _ _
      · intro p c hpc
        exact tlookup_tupdate_other _ _ hpc
    · rw [if_neg h] at hr
      cases hr

/-- C6 witness: the error case on symbol `c` over the alphabet `(a, b)`, and
the recorded transition in the success case. -/
theorem C6_add_transition_spec_witness :
    (exceptIsOk (add_transition (DFA.init ['a', 'b'] : DFA Nat) 0 'c' 1) = false ↔
      'c' ∉ (DFA.init ['a', 'b'] : DFA Nat).alphabet) ∧
    step (⟨['a', 'b'], [0, 1], none, [], [((0, 'a'), 1)]⟩ : DFA Nat) 0 'a' = some 1 :=
  ⟨(C6_add_transition_spec (DFA.init ['a', 'b']) 0 'c' 1).1,
   ((C6_add_transition_spec (DFA.init ['a', 'b']) 0 'a' 1).2 _ rfl).2.2.1⟩

/-- C8 counterexample: `set_accepting_state(5, True)` on a fresh automaton
puts `5` into the accepting set but not into the state set, contrary to the
claim that it inserts the id into `states`. -/
theorem C8_counterexample :
    5 ∈ (set_accepting_state (DFA.init ['a', 'b'] : DFA Nat) 5 true).accepting_states ∧
    5 ∉ (set_accepting_state (DFA.init ['a', 'b'] : DFA Nat) 5 true).states := by
  decide

/-- C8 amended: `set_accepting_state(id, True)` inserts the id only into the
accepting set and leaves `states` unchanged (so it can break the states
invariant), while `add_state`, `set_start` and `add_transition` do preserve
the invariant that every state referenced by the accepting set or the
transition table belongs to `states`. -/
theorem C8_amended_states_invariant {σ : Type} [DecidableEq σ] (d : DFA σ) (s : σ)
    (hinv : StatesInv d) :
    (set_accepting_state d s true).accepting_states = insertS d.accepting_states s ∧
    (set_accepting_state d s true).states = d.states ∧
    (∀ b, StatesInv (add_state d s b)) ∧
    StatesInv (set_start d s) ∧
    (∀ q a q' r, add_transition d q a q' = Except.ok r → StatesInv r) := by
  obtain ⟨hacc, htr⟩ := hinv
  refine ⟨rfl, rfl, ?_, ?_, ?_⟩
  · intro b
    constructor
    · intro x hx
      unfold add_state at hx
      by_cases hb : b = true
      · rw [if_pos hb] at hx
        rcases mem_insertS.mp hx with h1 | h1
        · exact insertS_subset _ (hacc x h1)
        · rw [h1]; exact self_mem_insertS _ _
      · rw [if_neg hb] at hx
        exact insertS_subset _ (hacc x hx)
    · intro e he
      exact ⟨insertS_subset _ (htr e he).1, insertS_subset _ (htr e he).2⟩
  · constructor
    · intro x hx
      exact insertS_subset _ (hacc x hx)
    · intro e he
      exact ⟨insertS_subset _ (htr e he).1, insertS_subset _ (htr e he).2⟩
  · intro q a q' r hr
    unfold add_transition at hr
    by_cases h : a ∈ d.alphabet
    · rw [if_pos h] at hr
      injection hr with hr
      subst hr
      constructor
      · intro x hx
        exact insertS_subset _ (insertS_subset _ (hacc x hx))
      · intro e he
        rcases mem_tupdate he with h1 | h1
        · exact ⟨insertS_subset _ (insertS_subset _ (htr e h1).1),
            insertS_subset _ (insertS_subset _ (htr e h1).2)⟩
        · rw [h1]
          exact ⟨insertS_subset _ (self_mem_insertS _ _), self_mem_insertS _ _⟩
    · rw [if_neg h] at hr
      cases hr

/-- C8 amended witness: the states set is untouched on a concrete automaton. -/
theorem C8_amended_states_invariant_witness :
    (set_accepting_state evenA 7 true).states = evenA.states :=
  (C8_amended_states_invariant evenA 7 ⟨by decide, by decide⟩).2.1

/-- C9 counterexample: on an automaton whose start state was never set,
`accepts` does not raise: the Python body contains no raise and simply
treats the `None` start like a missing transition, returning the boolean
`False` for every word — even the empty one, and even though the automaton
has an accepting state with transitions. -/
theorem C9_counterexample :
    accepts noStartD ['a'] = false ∧ accepts noStartD [] = false ∧
    0 ∈ noStartD.accepting_states ∧ step noStartD 0 'a' = some 0 := by
  decide

/-- C9 amended: before `set_start` is called, `accepts` returns `false` for
every word (the unset start behaves like the `None` sentinel that any
missing transition produces), rather than raising an error. -/
theorem C9_amended_accepts_false {σ : Type} [DecidableEq σ] (d : DFA σ) (w : List Char)
    (h : d.start_state = none) : accepts d w = false := by
  rw [accepts, h]
  cases w <;> rfl

/-- C9 amended witness. -/
theorem C9_amended_accepts_false_witness : accepts noStartD ['b', 'a'] = false :=
  C9_amended_accepts_false noStartD ['b', 'a'] rfl

/-- C2 counterexample: for the partial automaton `cexA` (language `{b, ab}`),
minimization does not preserve the language: the word `aab` is rejected by
`cexA` but accepted by `cexA.minimize()`.  (The refinement loop's
smaller-half worklist bookkeeping assumes a total transition function; with
partial transitions the final partition can be unstable, here merging states
`1` and `2`.) -/
theorem C2_counterexample :
    accepts cexA ['a', 'a', 'b'] = false ∧
    (minimize cexA).map (fun m => accepts m ['a', 'a', 'b']) = some true := by
  constructor
  · decide
  · decide

/-- C7 counterexample: minimization is not idempotent on the partial
automaton `cexC7`: `minimize` produces four states, and minimizing the
result again produces three. -/
theorem C7_counterexample :
    (minimize cexC7).map (fun m => m.states.length) = some 4 ∧
    ((minimize cexC7).bind (fun m => minimize m)).map (fun m2 => m2.states.length) =
      some 3 := by
  constructor
  · decide
  · decide

theorem store_get_modifyCell_ne (h : Store) (i j : Nat) (f : PrimState → PrimState)
    (hne : j ≠ i) : store_get (modifyCell h i f) j = store_get h j := by
  unfold modifyCell
  cases hm : h[i]? with
  | none => rfl
  | some v => exact List.getElem?_set_ne (fun hh => hne hh.symm)

theorem store_length_modifyCell (h : Store) (i : Nat) (f : PrimState → PrimState) :
    (modifyCell h i f).length = h.length := by
  unfold modifyCell
  cases hm : h[i]? with
  | none => rfl
  | some v => exact List.length_set h i (f v)

/-- C10: `update_primitive_state` never mutates its argument: with
dictionary reference semantics made explicit, the call on any live
reference succeeds, returns an address that is fresh (not allocated in the
input heap, in particular different from the argument), and the argument's
cell still holds its original dictionary afterwards — so the builder's BFS
loop can derive the successor for one alphabet symbol and still read the
dequeued state unchanged for the remaining symbols. -/
theorem C10_update_primitive_state_fresh (h : Store) (r : Nat) (sym : Char)
    (st : PrimState) (hr : store_get h r = some st) :
    ∃ h' addr, update_primitive_state_store h r sym = some (h', addr) ∧
      store_get h' r = some st ∧ addr ≠ r ∧ store_get h addr = none := by
  have hlt : r < h.length := by
    by_contra hge
    rw [store_get, List.getElem?_eq_none (Nat.le_of_not_lt hge)] at hr
    cases hr
  have hne : h.length ≠ r := Nat.ne_of_gt hlt
  have h1 : store_get (h ++ [st]) r = some st := by
    rw [store_get, List.getElem?_append, if_pos hlt]
    exact hr
  unfold update_primitive_state_store
  simp only [hr]
  refine ⟨_, _, rfl, ?_, hne, ?_⟩
  · rw [store_get_modifyCell_ne _ _ _ _ (Ne.symm hne), store_get_modifyCell_ne _ _ _ _ (Ne.symm hne),
      store_get_modifyCell_ne _ _ _ _ (Ne.symm hne), store_get_modifyCell_ne _ _ _ _ (Ne.symm hne),
      store_get_modifyCell_ne _ _ _ _ (Ne.symm hne), store_get_modifyCell_ne _ _ _ _ (Ne.symm hne)]
    exact h1
  · rw [store_get]
    exact List.getElem?_eq_none le_rfl

/-- C10 witness: the frame property on a concrete two-cell heap. -/
theorem C10_update_primitive_state_fresh_witness :
    ∃ h' addr,
      update_primitive_state_store [initial_primitive_state] 0 'a' = some (h', addr) ∧
      store_get h' 0 = some initial_primitive_state ∧ addr ≠ 0 ∧
      store_get [initial_primitive_state] addr = none :=
  C10_update_primitive_state_fresh [initial_primitive_state] 0 'a'
    initial_primitive_state rfl

/-! ## Correctness of `minimize` on total automata

The development below proves that on a well-formed automaton whose
transition table is total over its alphabet, the partition produced by the
refinement loop is acceptance-homogeneous, stable and saturated, and that
the quotient construction therefore preserves the language. -/

theorem lset_filter_mem {σ : Type} [DecidableEq σ] (Y X : List σ) :
    lset (Y.filter (fun q => decide (q ∈ X))) = lset Y ∩ lset X := by
  ext q
  simp [lset, List.mem_filter]

theorem lset_filter_not_mem {σ : Type} [DecidableEq σ] (Y X : List σ) :
    lset (Y.filter (fun q => decide (q ∉ X))) = lset Y \ lset X := by
  ext q
  simp [lset, List.mem_filter]

theorem lset_eq_union_filters {σ : Type} [DecidableEq σ] (Y X : List σ) :
    lset Y = lset (Y.filter (fun q => decide (q ∈ X))) ∪
      lset (Y.filter (fun q => decide (q ∉ X))) := by
  rw [lset_filter_mem, lset_filter_not_mem]
  exact (Set.inter_union_diff (lset Y) (lset X)).symm

theorem preSet_sdiff {σ : Type} [DecidableEq σ] (d : DFA σ) (c : Char) (S T : Set σ) :
    preSet d c (S \ T) = preSet d c S \ preSet d c T := by
  ext q
  simp only [preSet, Set.mem_setOf_eq, Set.mem_diff]
  constructor
  · rintro ⟨t, hst, hS, hT⟩
    refine ⟨⟨t, hst, hS⟩, ?_⟩
    rintro ⟨t', hst', hT'⟩
    rw [hst] at hst'
    injection hst' with hst'
    exact hT (hst' ▸ hT')
  · rintro ⟨⟨t, hst, hS⟩, hn⟩
    exact ⟨t, hst, hS, fun hT => hn ⟨t, hst, hT⟩⟩

theorem preSet_union {σ : Type} [DecidableEq σ] (d : DFA σ) (c : Char) (S T : Set σ) :
    preSet d c (S ∪ T) = preSet d c S ∪ preSet d c T := by
  ext q
  simp only [preSet, Set.mem_setOf_eq, Set.mem_union]
  constructor
  · rintro ⟨t, hst, hS | hT⟩
    · exact Or.inl ⟨t, hst, hS⟩
    · exact Or.inr ⟨t, hst, hT⟩
  · rintro (⟨t, hst, hS⟩ | ⟨t, hst, hT⟩)
    · exact ⟨t, hst, Or.inl hS⟩
    · exact ⟨t, hst, Or.inr hT⟩

theorem stableWrt_sdiff {σ : Type} [DecidableEq σ] {d : DFA σ} {P : List (List σ)}
    {c : Char} {S T : Set σ} (hS : StableWrt d P c S) (hT : StableWrt d P c T) :
    StableWrt d P c (S \ T) := by
  intro B hB
  rcases hS B hB with h1 | h1
  · rcases hT B hB with h2 | h2
    · right
      intro q hq hm
      rw [preSet_sdiff] at hm
      exact hm.2 (h2 q hq)
    · left
      intro q hq
      rw [preSet_sdiff]
      exact ⟨h1 q hq, h2 q hq⟩
  · right
    intro q hq hm
    rw [preSet_sdiff] at hm
    exact h1 q hq hm.1

theorem stableWrt_union {σ : Type} [DecidableEq σ] {d : DFA σ} {P : List (List σ)}
    {c : Char} {S T : Set σ} (hS : StableWrt d P c S) (hT : StableWrt d P c T) :
    StableWrt d P c (S ∪ T) := by
  intro B hB
  rcases hS B hB with h1 | h1
  · left
    intro q hq
    rw [preSet_union]
    exact Or.inl (h1 q hq)
  · rcases hT B hB with h2 | h2
    · left
      intro q hq
      rw [preSet_union]
      exact Or.inr (h2 q hq)
    · right
      intro q hq hm
      rw [preSet_union] at hm
      rcases hm with hm | hm
      · exact h1 q hq hm
      · exact h2 q hq hm

theorem refines_refl {σ : Type} (P : List (List σ)) : Refines P P :=
  fun B hB => ⟨B, hB, subset_rfl⟩

theorem stableWrt_of_refines {σ : Type} [DecidableEq σ] {d : DFA σ}
    {P P2 : List (List σ)} {c : Char} {S : Set σ} (h2 : Refines P2 P)
    (hS : StableWrt d P c S) : StableWrt d P2 c S := by
  intro B2 hB2
  obtain ⟨B, hB, hsub⟩ := h2 B2 hB2
  rcases hS B hB with h1 | h1
  · left
    exact fun q hq => h1 q (hsub hq)
  · right
    exact fun q hq => h1 q (hsub hq)

theorem cov_stable_of_nil {σ : Type} [DecidableEq σ] {d : DFA σ} {P : List (List σ)}
    {c : Char} {S : Set σ} (h : Cov d P [] c S) : StableWrt d P c S := by
  induction h with
  | stable h => exact h
  | pending hA => exact absurd hA (List.not_mem_nil _)
  | sdiff _ _ ih1 ih2 => exact stableWrt_sdiff ih1 ih2
  | union _ _ ih1 ih2 => exact stableWrt_union ih1 ih2

theorem cov_cut {σ : Type} [DecidableEq σ] {d : DFA σ} {P P2 W W2 : List (List σ)}
    {c : Char} {S : Set σ} (h : Cov d P W c S) (href : Refines P2 P)
    (hW : ∀ A ∈ W, Cov d P2 W2 c (lset A)) : Cov d P2 W2 c S := by
  induction h with
  | stable h => exact Cov.stable (stableWrt_of_refines href h)
  | pending hA => exact hW _ hA
  | sdiff _ _ ih1 ih2 => exact Cov.sdiff ih1 ih2
  | union _ _ ih1 ih2 => exact Cov.union ih1 ih2

theorem cov_mono_W {σ : Type} [DecidableEq σ] {d : DFA σ} {P W W2 : List (List σ)}
    {c : Char} {S : Set σ} (hmem : ∀ A ∈ W, A ∈ W2) (h : Cov d P W c S) :
    Cov d P W2 c S :=
  cov_cut h (refines_refl P) (fun A hA => Cov.pending (hmem A hA))

theorem seteq_iff_lset {σ : Type} [DecidableEq σ] {X Y : List σ} :
    seteq X Y = true ↔ lset X = lset Y := by
  unfold seteq
  rw [Bool.and_eq_true, List.all_eq_true, List.all_eq_true]
  constructor
  · rintro ⟨h1, h2⟩
    ext q
    constructor
    · intro hq
      simpa using h1 q hq
    · intro hq
      simpa using h2 q hq
  · intro h
    constructor
    · intro q hq
      simpa using (Set.ext_iff.mp h q).mp hq
    · intro q hq
      simpa using (Set.ext_iff.mp h q).mpr hq

theorem mem_of_mem_removeFirstSeteq {σ : Type} [DecidableEq σ]
    {W : List (List σ)} {A Y : List σ} (h : A ∈ removeFirstSeteq W Y) : A ∈ W := by
  induction W with
  | nil => exact absurd h (List.not_mem_nil _)
  | cons Z W ih =>
    unfold removeFirstSeteq at h
    by_cases hz : seteq Z Y = true
    · rw [if_pos hz] at h
      exact List.mem_cons_of_mem _ h
    · rw [if_neg hz] at h
      rcases List.mem_cons.mp h with h1 | h1
      · exact h1 ▸ List.mem_cons_self _ _
      · exact List.mem_cons_of_mem _ (ih h1)

theorem mem_removeFirstSeteq_or {σ : Type} [DecidableEq σ]
    {W : List (List σ)} {A Y : List σ} (h : A ∈ W) :
    A ∈ removeFirstSeteq W Y ∨ seteq A Y = true := by
  induction W with
  | nil => exact absurd h (List.not_mem_nil _)
  | cons Z W ih =>
    unfold removeFirstSeteq
    by_cases hz : seteq Z Y = true
    · rw [if_pos hz]
      rcases List.mem_cons.mp h with h1 | h1
      · exact Or.inr (h1 ▸ hz)
      · exact Or.inl h1
    · rw [if_neg hz]
      rcases List.mem_cons.mp h with h1 | h1
      · exact Or.inl (h1 ▸ List.mem_cons_self _ _)
      · rcases ih h1 with h2 | h2
        · exact Or.inl (List.mem_cons_of_mem _ h2)
        · exact Or.inr h2

theorem mem_removeFirstSeteq_of_not_seteq {σ : Type} [DecidableEq σ]
    {W : List (List σ)} {A Y : List σ} (hA : A ∈ W) (hne : ¬ seteq A Y = true) :
    A ∈ removeFirstSeteq W Y := by
  induction W with
  | nil => exact absurd hA (List.not_mem_nil _)
  | cons Z W ih =>
    unfold removeFirstSeteq
    by_cases hz : seteq Z Y = true
    · rw [if_pos hz]
      rcases List.mem_cons.mp hA with h1 | h1
      · exact absurd (h1 ▸ hz) hne
      · exact h1
    · rw [if_neg hz]
      rcases List.mem_cons.mp hA with h1 | h1
      · exact h1 ▸ List.mem_cons_self _ _
      · exact List.mem_cons_of_mem _ (ih h1)

theorem length_removeFirstSeteq {σ : Type} [DecidableEq σ]
    {W : List (List σ)} {Y : List σ}
    (h : (W.find? (fun Z => seteq Z Y)).isSome = true) :
    (removeFirstSeteq W Y).length + 1 = W.length := by
  induction W with
  | nil => simp at h
  | cons Z W ih =>
    unfold removeFirstSeteq
    by_cases hz : seteq Z Y = true
    · rw [if_pos hz]
      simp
    · rw [if_neg hz]
      have h' : (W.find? (fun Z => seteq Z Y)).isSome = true := by
        simpa [List.find?, hz] using h
      simp only [List.length_cons]
      rw [← ih h']

theorem not_seteq_of_disjoint {σ : Type} [DecidableEq σ] {A Y Y2 : List σ}
    (hsub : ∀ q ∈ A, q ∈ Y) (hne : A ≠ [])
    (hdisj : ∀ q, q ∈ Y → q ∉ Y2) : ¬ seteq A Y2 = true := by
  intro hse
  obtain ⟨q, hq⟩ := List.exists_mem_of_ne_nil A hne
  have hq2 : q ∈ Y2 := by
    have := seteq_iff_lset.mp hse
    exact (Set.ext_iff.mp this q).mp hq
  exact hdisj q (hsub q hq) hq2

theorem splitPass_fst {σ : Type} [DecidableEq σ] (X : List σ) (P : List (List σ)) :
    ∀ W, (splitPass X P W).1 = splitBlocks X P := by
  induction P with
  | nil => intro W; rfl
  | cons Y Ys ih =>
    intro W
    unfold splitPass splitBlocks
    by_cases h : Y.filter (fun q => q ∈ X) ≠ [] ∧ Y.filter (fun q => q ∉ X) ≠ []
    · rw [if_pos h, List.flatMap_cons, if_pos h]
      simp only [List.cons_append, List.nil_append]
      rw [ih (splitW X Y W)]
      rfl
    · rw [if_neg h, List.flatMap_cons, if_neg h]
      simp only [List.cons_append, List.nil_append]
      rw [ih W]
      rfl

theorem splitPass_W_survives {σ : Type} [DecidableEq σ] {X : List σ}
    {P : List (List σ)} {A : List σ} :
    ∀ {W}, A ∈ W → (∀ Y ∈ P, ¬ seteq A Y = true) → A ∈ (splitPass X P W).2 := by
  induction P with
  | nil => intro W hA _; exact hA
  | cons Y Ys ih =>
    intro W hA hnot
    unfold splitPass
    by_cases h : Y.filter (fun q => q ∈ X) ≠ [] ∧ Y.filter (fun q => q ∉ X) ≠ []
    · rw [if_pos h]
      refine ih ?_ (fun Z hZ => hnot Z (List.mem_cons_of_mem _ hZ))
      unfold splitW
      by_cases hf : (W.find? (fun Z => seteq Z Y)).isSome = true
      · rw [if_pos hf]
        exact List.mem_append_left _
          (mem_removeFirstSeteq_of_not_seteq hA (hnot Y (List.mem_cons_self _ _)))
      · rw [if_neg hf]
        exact List.mem_append_left _ hA
    · rw [if_neg h]
      exact ih hA (fun Z hZ => hnot Z (List.mem_cons_of_mem _ hZ))

theorem splitPass_W_source {σ : Type} [DecidableEq σ] {X : List σ} {P : List (List σ)} :
    ∀ {W}, ∀ A2 ∈ (splitPass X P W).2, A2 ∈ W ∨
      ∃ Y ∈ P, (Y.filter (fun q => q ∈ X) ≠ [] ∧ Y.filter (fun q => q ∉ X) ≠ []) ∧
        (A2 = Y.filter (fun q => q ∈ X) ∨ A2 = Y.filter (fun q => q ∉ X)) := by
  induction P with
  | nil => intro W A2 h; exact Or.inl h
  | cons Y Ys ih =>
    intro W A2 h
    unfold splitPass at h
    by_cases hs : Y.filter (fun q => q ∈ X) ≠ [] ∧ Y.filter (fun q => q ∉ X) ≠ []
    · rw [if_pos hs] at h
      rcases ih A2 h with h1 | ⟨Z, hZ, h1⟩
      · unfold splitW at h1
        by_cases hf : (W.find? (fun Z => seteq Z Y)).isSome = true
        · rw [if_pos hf] at h1
          rcases List.mem_append.mp h1 with h2 | h2
          · exact Or.inl (mem_of_mem_removeFirstSeteq h2)
          · rcases List.mem_cons.mp h2 with h3 | h3
            · exact Or.inr ⟨Y, List.mem_cons_self _ _, hs, Or.inl h3⟩
            · exact Or.inr ⟨Y, List.mem_cons_self _ _, hs,
                Or.inr (List.mem_singleton.mp h3)⟩
        · rw [if_neg hf] at h1
          rcases List.mem_append.mp h1 with h2 | h2
          · exact Or.inl h2
          · by_cases hlen : (Y.filter (fun q => q ∈ X)).length ≤
                (Y.filter (fun q => q ∉ X)).length
            · rw [if_pos hlen] at h2
              exact Or.inr ⟨Y, List.mem_cons_self _ _, hs,
                Or.inl (List.mem_singleton.mp h2)⟩
            · rw [if_neg hlen] at h2
              exact Or.inr ⟨Y, List.mem_cons_self _ _, hs,
                Or.inr (List.mem_singleton.mp h2)⟩
      · exact Or.inr ⟨Z, List.mem_cons_of_mem _ hZ, h1⟩
    · rw [if_neg hs] at h
      rcases ih A2 h with h1 | ⟨Z, hZ, h1⟩
      · exact Or.inl h1
      · exact Or.inr ⟨Z, List.mem_cons_of_mem _ hZ, h1⟩

theorem splitW_mem_of_removeFirst {σ : Type} [DecidableEq σ] {X Y : List σ}
    {W : List (List σ)} {A : List σ}
    (hf : (W.find? (fun Z => seteq Z Y)).isSome = true)
    (hA : A ∈ removeFirstSeteq W Y) : A ∈ splitW X Y W := by
  unfold splitW
  rw [if_pos hf]
  exact List.mem_append_left _ hA

theorem splitW_parts_mem {σ : Type} [DecidableEq σ] {X Y : List σ}
    {W : List (List σ)} (hf : (W.find? (fun Z => seteq Z Y)).isSome = true) :
    Y.filter (fun q => q ∈ X) ∈ splitW X Y W ∧
    Y.filter (fun q => q ∉ X) ∈ splitW X Y W := by
  unfold splitW
  rw [if_pos hf]
  exact ⟨List.mem_append_right _ (List.mem_cons_self _ _),
    List.mem_append_right _ (List.mem_cons_of_mem _ (List.mem_cons_self _ _))⟩

theorem splitW_mem_of_mem {σ : Type} [DecidableEq σ] {X Y : List σ}
    {W : List (List σ)} {A : List σ}
    (hf : ¬ (W.find? (fun Z => seteq Z Y)).isSome = true)
    (hA : A ∈ W) : A ∈ splitW X Y W := by
  unfold splitW
  rw [if_neg hf]
  exact List.mem_append_left _ hA

theorem splitW_min_mem {σ : Type} [DecidableEq σ] {X Y : List σ}
    {W : List (List σ)} (hf : ¬ (W.find? (fun Z => seteq Z Y)).isSome = true) :
    Y.filter (fun q => q ∈ X) ∈ splitW X Y W ∨
    Y.filter (fun q => q ∉ X) ∈ splitW X Y W := by
  unfold splitW
  rw [if_neg hf]
  by_cases hlen : (Y.filter (fun q => q ∈ X)).length ≤ (Y.filter (fun q => q ∉ X)).length
  · rw [if_pos hlen]
    exact Or.inl (List.mem_append_right _ (List.mem_singleton.mpr rfl))
  · rw [if_neg hlen]
    exact Or.inr (List.mem_append_right _ (List.mem_singleton.mpr rfl))

theorem splitPass_W_covered {σ : Type} [DecidableEq σ] {X : List σ} {P : List (List σ)}
    (hdisj : P.Pairwise (fun B C => ∀ q, q ∈ B → q ∉ C)) :
    ∀ {W}, ∀ A ∈ W,
      (∃ A2 ∈ (splitPass X P W).2, lset A2 = lset A) ∨
      (∃ Y ∈ P, lset A = lset Y ∧
        Y.filter (fun q => q ∈ X) ∈ (splitPass X P W).2 ∧
        Y.filter (fun q => q ∉ X) ∈ (splitPass X P W).2) := by
  induction P with
  | nil => intro W A hA; exact Or.inl ⟨A, hA, rfl⟩
  | cons Y Ys ih =>
    intro W A hA
    have hd1 : ∀ B ∈ Ys, ∀ q, q ∈ Y → q ∉ B := (List.pairwise_cons.mp hdisj).1
    have hd2 : Ys.Pairwise (fun B C => ∀ q, q ∈ B → q ∉ C) :=
      (List.pairwise_cons.mp hdisj).2
    unfold splitPass
    by_cases hs : Y.filter (fun q => q ∈ X) ≠ [] ∧ Y.filter (fun q => q ∉ X) ≠ []
    · rw [if_pos hs]
      have hsurv : ∀ T, (∀ q ∈ T, q ∈ Y) → T ≠ [] → T ∈ splitW X Y W →
          T ∈ (splitPass X Ys (splitW X Y W)).2 := by
        intro T hTsub hTne hTmem
        refine splitPass_W_survives hTmem ?_
        intro Y2 hY2
        exact not_seteq_of_disjoint hTsub hTne (fun q hq => hd1 Y2 hY2 q hq)
      by_cases hf : (W.find? (fun Z => seteq Z Y)).isSome = true
      · rcases mem_removeFirstSeteq_or (Y := Y) hA with h1 | h1
        · rcases ih hd2 A (splitW_mem_of_removeFirst hf h1) with h2 | ⟨Z, hZ, h2⟩
          · exact Or.inl h2
          · exact Or.inr ⟨Z, List.mem_cons_of_mem _ hZ, h2⟩
        · refine Or.inr ⟨Y, List.mem_cons_self _ _, seteq_iff_lset.mp h1, ?_, ?_⟩
          · exact hsurv _ (fun q hq => (List.mem_filter.mp hq).1) hs.1
              (splitW_parts_mem hf).1
          · exact hsurv _ (fun q hq => (List.mem_filter.mp hq).1) hs.2
              (splitW_parts_mem hf).2
      · rcases ih hd2 A (splitW_mem_of_mem hf hA) with h2 | ⟨Z, hZ, h2⟩
        · exact Or.inl h2
        · exact Or.inr ⟨Z, List.mem_cons_of_mem _ hZ, h2⟩
    · rw [if_neg hs]
      rcases ih hd2 A hA with h2 | ⟨Z, hZ, h2⟩
      · exact Or.inl h2
      · exact Or.inr ⟨Z, List.mem_cons_of_mem _ hZ, h2⟩

theorem splitPass_W_part {σ : Type} [DecidableEq σ] {X : List σ} {P : List (List σ)}
    (hdisj : P.Pairwise (fun B C => ∀ q, q ∈ B → q ∉ C)) :
    ∀ {W}, ∀ Y ∈ P,
      (Y.filter (fun q => q ∈ X) ≠ [] ∧ Y.filter (fun q => q ∉ X) ≠ []) →
      Y.filter (fun q => q ∈ X) ∈ (splitPass X P W).2 ∨
      Y.filter (fun q => q ∉ X) ∈ (splitPass X P W).2 := by
  induction P with
  | nil => intro W Y hY; exact absurd hY (List.not_mem_nil _)
  | cons Z Zs ih =>
    intro W Y hY hne
    have hd1 : ∀ B ∈ Zs, ∀ q, q ∈ Z → q ∉ B := (List.pairwise_cons.mp hdisj).1
    have hd2 : Zs.Pairwise (fun B C => ∀ q, q ∈ B → q ∉ C) :=
      (List.pairwise_cons.mp hdisj).2
    rcases List.mem_cons.mp hY with rfl | hY1
    · unfold splitPass
      rw [if_pos hne]
      have hsurv : ∀ T, (∀ q ∈ T, q ∈ Y) → T ≠ [] → T ∈ splitW X Y W →
          T ∈ (splitPass X Zs (splitW X Y W)).2 := by
        intro T hTsub hTne hTmem
        refine splitPass_W_survives hTmem ?_
        intro Y2 hY2
        exact not_seteq_of_disjoint hTsub hTne (fun q hq => hd1 Y2 hY2 q hq)
      by_cases hf : (W.find? (fun Z2 => seteq Z2 Y)).isSome = true
      · exact Or.inl (hsurv _ (fun q hq => (List.mem_filter.mp hq).1) hne.1
          (splitW_parts_mem hf).1)
      · rcases splitW_min_mem (X := X) hf with hmin | hmin
        · exact Or.inl (hsurv _ (fun q hq => (List.mem_filter.mp hq).1) hne.1 hmin)
        · exact Or.inr (hsurv _ (fun q hq => (List.mem_filter.mp hq).1) hne.2 hmin)
    · unfold splitPass
      by_cases hs : Z.filter (fun q => q ∈ X) ≠ [] ∧ Z.filter (fun q => q ∉ X) ≠ []
      · rw [if_pos hs]
        exact ih hd2 Y hY1 hne
      · rw [if_neg hs]
        exact ih hd2 Y hY1 hne

theorem splitW_length {σ : Type} [DecidableEq σ] (X Y : List σ) (W : List (List σ)) :
    (splitW X Y W).length ≤ W.length + 1 := by
  unfold splitW
  by_cases hf : (W.find? (fun Z => seteq Z Y)).isSome = true
  · rw [if_pos hf]
    rw [List.length_append]
    have := length_removeFirstSeteq hf
    simp only [List.length_cons, List.length_singleton, List.length_nil]
    omega
  · rw [if_neg hf]
    rw [List.length_append]
    simp

theorem splitBlocks_cons {σ : Type} [DecidableEq σ] (X Y : List σ) (Ys : List (List σ)) :
    splitBlocks X (Y :: Ys) =
      (if Y.filter (fun q => q ∈ X) ≠ [] ∧ Y.filter (fun q => q ∉ X) ≠ [] then
        [Y.filter (fun q => q ∈ X), Y.filter (fun q => q ∉ X)]
      else [Y]) ++ splitBlocks X Ys := by
  unfold splitBlocks
  rw [List.flatMap_cons]

theorem splitBlocks_length_ge {σ : Type} [DecidableEq σ] (X : List σ)
    (P : List (List σ)) : P.length ≤ (splitBlocks X P).length := by
  induction P with
  | nil => exact Nat.le_refl 0
  | cons Y Ys ih =>
    rw [splitBlocks_cons, List.length_append]
    by_cases hs : Y.filter (fun q => q ∈ X) ≠ [] ∧ Y.filter (fun q => q ∉ X) ≠ []
    · rw [if_pos hs]
      simp only [List.length_cons, List.length_singleton, List.length_nil]
      omega
    · rw [if_neg hs]
      simp only [List.length_cons, List.length_singleton, List.length_nil]
      omega

theorem splitPass_count {σ : Type} [DecidableEq σ] {X : List σ} {P : List (List σ)} :
    ∀ W, (splitPass X P W).2.length + P.length ≤
      W.length + (splitBlocks X P).length := by
  induction P with
  | nil => intro W; simp [splitPass, splitBlocks]
  | cons Y Ys ih =>
    intro W
    unfold splitPass
    rw [splitBlocks_cons, List.length_append]
    by_cases hs : Y.filter (fun q => q ∈ X) ≠ [] ∧ Y.filter (fun q => q ∉ X) ≠ []
    · rw [if_pos hs, if_pos hs]
      have h1 := ih (splitW X Y W)
      have h2 := splitW_length X Y W
      simp only [List.length_cons, List.length_singleton, List.length_nil]
      omega
    · rw [if_neg hs, if_neg hs]
      have h1 := ih W
      simp only [List.length_cons, List.length_singleton, List.length_nil]
      omega

theorem splitBlocks_mem_source {σ : Type} [DecidableEq σ] {X : List σ}
    {P : List (List σ)} {B2 : List σ} (h : B2 ∈ splitBlocks X P) :
    ∃ Y ∈ P, B2 = Y ∨ B2 = Y.filter (fun q => q ∈ X) ∨
      B2 = Y.filter (fun q => q ∉ X) := by
  obtain ⟨Y, hY, hmem⟩ := List.mem_flatMap.mp h
  refine ⟨Y, hY, ?_⟩
  by_cases hs : Y.filter (fun q => q ∈ X) ≠ [] ∧ Y.filter (fun q => q ∉ X) ≠ []
  · rw [if_pos hs] at hmem
    rcases List.mem_cons.mp hmem with h1 | h1
    · exact Or.inr (Or.inl h1)
    · exact Or.inr (Or.inr (List.mem_singleton.mp h1))
  · rw [if_neg hs] at hmem
    exact Or.inl (List.mem_singleton.mp hmem)

theorem splitBlocks_refines {σ : Type} [DecidableEq σ] (X : List σ)
    (P : List (List σ)) : Refines (splitBlocks X P) P := by
  intro B2 hB2
  obtain ⟨Y, hY, hform⟩ := splitBlocks_mem_source hB2
  refine ⟨Y, hY, ?_⟩
  rcases hform with rfl | rfl | rfl
  · exact subset_rfl
  · intro q hq
    exact (List.mem_filter.mp hq).1
  · intro q hq
    exact (List.mem_filter.mp hq).1

theorem splitBlocks_mem_split {σ : Type} [DecidableEq σ] {X : List σ}
    {P : List (List σ)} {Y : List σ} (hY : Y ∈ P)
    (hs : Y.filter (fun q => q ∈ X) ≠ [] ∧ Y.filter (fun q => q ∉ X) ≠ []) :
    Y.filter (fun q => q ∈ X) ∈ splitBlocks X P ∧
    Y.filter (fun q => q ∉ X) ∈ splitBlocks X P := by
  constructor
  · refine List.mem_flatMap.mpr ⟨Y, hY, ?_⟩
    rw [if_pos hs]
    exact List.mem_cons_self _ _
  · refine List.mem_flatMap.mpr ⟨Y, hY, ?_⟩
    rw [if_pos hs]
    exact List.mem_cons_of_mem _ (List.mem_cons_self _ _)

theorem splitBlocks_mem_unsplit {σ : Type} [DecidableEq σ] {X : List σ}
    {P : List (List σ)} {Y : List σ} (hY : Y ∈ P)
    (hs : ¬(Y.filter (fun q => q ∈ X) ≠ [] ∧ Y.filter (fun q => q ∉ X) ≠ [])) :
    Y ∈ splitBlocks X P := by
  refine List.mem_flatMap.mpr ⟨Y, hY, ?_⟩
  rw [if_neg hs]
  exact List.mem_singleton.mpr rfl

theorem splitBlocks_cover {σ : Type} [DecidableEq σ] {X : List σ}
    {P : List (List σ)} {q : σ} {Y : List σ} (hY : Y ∈ P) (hq : q ∈ Y) :
    ∃ B2 ∈ splitBlocks X P, q ∈ B2 := by
  by_cases hs : Y.filter (fun q => q ∈ X) ≠ [] ∧ Y.filter (fun q => q ∉ X) ≠ []
  · by_cases hx : q ∈ X
    · exact ⟨_, (splitBlocks_mem_split hY hs).1, List.mem_filter.mpr ⟨hq, by simpa⟩⟩
    · exact ⟨_, (splitBlocks_mem_split hY hs).2, List.mem_filter.mpr ⟨hq, by simpa⟩⟩
  · exact ⟨Y, splitBlocks_mem_unsplit hY hs, hq⟩

theorem splitBlocks_sub_parent {σ : Type} [DecidableEq σ] {X : List σ} {Y B1 : List σ}
    (hB1 : B1 ∈ if Y.filter (fun q => q ∈ X) ≠ [] ∧ Y.filter (fun q => q ∉ X) ≠ [] then
      [Y.filter (fun q => q ∈ X), Y.filter (fun q => q ∉ X)] else [Y]) :
    ∀ q ∈ B1, q ∈ Y := by
  by_cases hs : Y.filter (fun q => q ∈ X) ≠ [] ∧ Y.filter (fun q => q ∉ X) ≠ []
  · rw [if_pos hs] at hB1
    rcases List.mem_cons.mp hB1 with rfl | h1
    · exact fun q hq => (List.mem_filter.mp hq).1
    · rw [List.mem_singleton.mp h1]
      exact fun q hq => (List.mem_filter.mp hq).1
  · rw [if_neg hs] at hB1
    rw [List.mem_singleton.mp hB1]
    exact fun q hq => hq

theorem splitBlocks_pairwise {σ : Type} [DecidableEq σ] {X : List σ}
    {P : List (List σ)} (h : P.Pairwise (fun B C => ∀ q, q ∈ B → q ∉ C)) :
    (splitBlocks X P).Pairwise (fun B C => ∀ q, q ∈ B → q ∉ C) := by
  induction P with
  | nil => exact List.Pairwise.nil
  | cons Y Ys ih =>
    rw [splitBlocks_cons]
    have hd1 := (List.pairwise_cons.mp h).1
    have hd2 := (List.pairwise_cons.mp h).2
    refine List.pairwise_append.mpr ⟨?_, ih hd2, ?_⟩
    · by_cases hs : Y.filter (fun q => q ∈ X) ≠ [] ∧ Y.filter (fun q => q ∉ X) ≠ []
      · rw [if_pos hs]
        refine List.pairwise_cons.mpr ⟨?_, List.pairwise_cons.mpr
          ⟨fun B hB => absurd hB (List.not_mem_nil _), List.Pairwise.nil⟩⟩
        intro B hB q hqi hqB
        rw [List.mem_singleton.mp hB] at hqB
        have h1 : q ∈ X := by simpa using (List.mem_filter.mp hqi).2
        have h2 : q ∉ X := by simpa using (List.mem_filter.mp hqB).2
        exact h2 h1
      · rw [if_neg hs]
        exact List.pairwise_cons.mpr
          ⟨fun B hB => absurd hB (List.not_mem_nil _), List.Pairwise.nil⟩
    · intro B1 hB1 B2 hB2
      obtain ⟨Y2, hY2, hform⟩ := splitBlocks_mem_source hB2
      intro q hq1 hq2
      have hqY : q ∈ Y := splitBlocks_sub_parent hB1 q hq1
      have hqY2 : q ∈ Y2 := by
        rcases hform with rfl | rfl | rfl
        · exact hq2
        · exact (List.mem_filter.mp hq2).1
        · exact (List.mem_filter.mp hq2).1
      exact hd1 Y2 hY2 q hqY hqY2

theorem splitBlocks_empties {σ : Type} [DecidableEq σ] (X : List σ)
    (P : List (List σ)) :
    ((splitBlocks X P).filter (fun B => B.isEmpty)).length ≤
      (P.filter (fun B => B.isEmpty)).length := by
  induction P with
  | nil => exact Nat.le_refl 0
  | cons Y Ys ih =>
    rw [splitBlocks_cons, List.filter_append, List.length_append]
    by_cases hs : Y.filter (fun q => q ∈ X) ≠ [] ∧ Y.filter (fun q => q ∉ X) ≠ []
    · rw [if_pos hs]
      have hzero : List.filter (fun B => B.isEmpty)
          [Y.filter (fun q => q ∈ X), Y.filter (fun q => q ∉ X)] = [] := by
        rw [List.filter_eq_nil_iff]
        intro B hB
        rcases List.mem_cons.mp hB with rfl | hB1
        · simpa [List.isEmpty_iff] using hs.1
        · rw [List.mem_singleton.mp hB1]
          simpa [List.isEmpty_iff] using hs.2
      rw [hzero, List.filter_cons]
      cases hYE : Y.isEmpty
      · rw [List.length_nil, if_neg (by decide : ¬(false = true)), Nat.zero_add]
        exact ih
      · rw [List.length_nil, if_pos (rfl : (true : Bool) = true), Nat.zero_add,
          List.length_cons]
        exact Nat.le_succ_of_le ih
    · rw [if_neg hs]
      simp only [List.filter_cons]
      cases hYE : Y.isEmpty
      · rw [if_neg (by decide : ¬(false = true)), if_neg (by decide : ¬(false = true))]
        simpa using ih
      · rw [if_pos (rfl : (true : Bool) = true), if_pos (rfl : (true : Bool) = true)]
        simp only [List.length_cons, List.filter_nil, List.length_nil]
        omega

theorem length_le_flatten {σ : Type} {L : List (List σ)} (h : ∀ l ∈ L, l ≠ []) :
    L.length ≤ L.flatten.length := by
  induction L with
  | nil => exact Nat.le_refl 0
  | cons l ls ih =>
    rw [List.flatten_cons, List.length_append, List.length_cons]
    have h1 : 1 ≤ l.length := by
      have := h l (List.mem_cons_self _ _)
      cases l with
      | nil => exact absurd rfl this
      | cons a as => simp
    have h2 := ih (fun x hx => h x (List.mem_cons_of_mem _ hx))
    omega

theorem partInv_length_le {σ : Type} [DecidableEq σ] {d : DFA σ} {P : List (List σ)}
    (h : PartInv d P) : P.length ≤ d.states.length + 2 := by
  obtain ⟨hblocks, hdisj, _, hemp⟩ := h
  have hflat : (P.filter (fun B => !B.isEmpty)).flatten.Nodup := by
    rw [List.nodup_flatten]
    constructor
    · intro l hl
      exact (hblocks l (List.mem_of_mem_filter hl)).1
    · have h1 : (P.filter (fun B => !B.isEmpty)).Pairwise
          (fun B C => ∀ q, q ∈ B → q ∉ C) := List.Pairwise.filter _ hdisj
      exact h1.imp (fun {a b} hab x hx hx2 => hab x hx hx2)
  have hsub : (P.filter (fun B => !B.isEmpty)).flatten ⊆ d.states := by
    intro q hq
    obtain ⟨l, hl, hql⟩ := List.mem_flatten.mp hq
    exact (hblocks l (List.mem_of_mem_filter hl)).2 q hql
  have h1 : (P.filter (fun B => !B.isEmpty)).flatten.length ≤ d.states.length :=
    (List.subperm_of_subset hflat hsub).length_le
  have h2 : (P.filter (fun B => !B.isEmpty)).length ≤
      (P.filter (fun B => !B.isEmpty)).flatten.length := by
    refine length_le_flatten ?_
    intro l hl
    have := List.of_mem_filter hl
    intro hnil
    rw [hnil] at this
    simp at this
  have h3 : P.length = (P.filter (fun B => B.isEmpty)).length +
      (P.filter (fun B => !B.isEmpty)).length :=
    List.length_eq_length_filter_add _
  omega

theorem mem_preimg_iff {σ : Type} [DecidableEq σ] {d : DFA σ} {c : Char} {A : List σ}
    {q : σ} :
    q ∈ preimg d c A ↔ q ∈ d.states ∧ ∃ t, step d q c = some t ∧ t ∈ A := by
  unfold preimg
  rw [List.mem_filter]
  constructor
  · rintro ⟨hq, hp⟩
    refine ⟨hq, ?_⟩
    cases hstep : step d q c with
    | none => rw [hstep] at hp; cases hp
    | some t =>
      rw [hstep] at hp
      exact ⟨t, rfl, by simpa using hp⟩
  · rintro ⟨hq, t, hstep, htA⟩
    refine ⟨hq, ?_⟩
    rw [hstep]
    simpa using htA

theorem step_mem_states {σ : Type} [DecidableEq σ] {d : DFA σ} (hwf : WF d)
    {q : σ} {c : Char} {t : σ} (h : step d q c = some t) : t ∈ d.states := by
  unfold step tlookup at h
  cases hf : d.transitions.find? (fun e => e.1 = (q, c)) with
  | none => rw [hf] at h; cases h
  | some e =>
    rw [hf] at h
    injection h with h
    have hmem := List.mem_of_find?_eq_some hf
    exact h ▸ (hwf.2.2.2.2 e hmem).2.1

theorem langEq_symm {σ : Type} [DecidableEq σ] {d : DFA σ} {q q' : σ}
    (h : LangEq d q q') : LangEq d q' q :=
  fun w hw => (h w hw).symm

theorem langEq_step {σ : Type} [DecidableEq σ] {d : DFA σ} {c : Char} {q q' t t' : σ}
    (hc : c ∈ d.alphabet) (h : LangEq d q q') (hq : step d q c = some t)
    (hq' : step d q' c = some t') : LangEq d t t' := by
  intro w hw
  have hcw : word_ok d.alphabet (c :: w) := by
    intro x hx
    rcases List.mem_cons.mp hx with rfl | hx
    · exact hc
    · exact hw x hx
  have h2 := h (c :: w) hcw
  unfold accepts_st at h2 ⊢
  simpa [accepts_from, hq, hq'] using h2

theorem preimg_satClosed {σ : Type} [DecidableEq σ] {d : DFA σ} (hwf : WF d)
    (htot : TotalD d) {c : Char} {A : List σ} (hc : c ∈ d.alphabet)
    (hA : SatSet d A) :
    ∀ q q', q ∈ preimg d c A → q' ∈ d.states → LangEq d q q' → q' ∈ preimg d c A := by
  intro q q' hq hq' heq
  obtain ⟨hqs, t, hstep, htA⟩ := mem_preimg_iff.mp hq
  obtain ⟨t', hstep'⟩ := Option.isSome_iff_exists.mp (htot q' hq' c hc)
  refine mem_preimg_iff.mpr ⟨hq', t', hstep', ?_⟩
  exact hA t htA t' (step_mem_states hwf hstep') (langEq_step hc heq hstep hstep')

theorem splitBlocks_satInv {σ : Type} [DecidableEq σ] {d : DFA σ} {X : List σ}
    {P : List (List σ)} (hP : SatInv d P)
    (hX : ∀ q q', q ∈ X → q' ∈ d.states → LangEq d q q' → q' ∈ X)
    (hblocks : ∀ B ∈ P, ∀ q ∈ B, q ∈ d.states) :
    SatInv d (splitBlocks X P) := by
  intro B2 hB2
  obtain ⟨Y, hY, hform⟩ := splitBlocks_mem_source hB2
  rcases hform with rfl | rfl | rfl
  · exact hP _ hY
  · intro q hq q' hq' heq
    have h1 := List.mem_filter.mp hq
    refine List.mem_filter.mpr ⟨hP Y hY q h1.1 q' hq' heq, ?_⟩
    simpa using hX q q' (by simpa using h1.2) hq' heq
  · intro q hq q' hq' heq
    have h1 := List.mem_filter.mp hq
    refine List.mem_filter.mpr ⟨hP Y hY q h1.1 q' hq' heq, ?_⟩
    have hqx : q ∉ X := by simpa using h1.2
    simp only [decide_eq_true_eq]
    intro hq'x
    exact hqx (hX q' q hq'x ((hblocks Y hY) q h1.1) (langEq_symm heq))

theorem splitBlocks_homog {σ : Type} [DecidableEq σ] {d : DFA σ} {X : List σ}
    {P : List (List σ)} (h : Homog d P) : Homog d (splitBlocks X P) := by
  intro B2 hB2
  obtain ⟨Y, hY, hform⟩ := splitBlocks_mem_source hB2
  rcases h Y hY with h1 | h1
  · left
    intro q hq
    rcases hform with rfl | rfl | rfl
    · exact h1 q hq
    · exact h1 q (List.mem_filter.mp hq).1
    · exact h1 q (List.mem_filter.mp hq).1
  · right
    intro q hq
    rcases hform with rfl | rfl | rfl
    · exact h1 q hq
    · exact h1 q (List.mem_filter.mp hq).1
    · exact h1 q (List.mem_filter.mp hq).1

theorem splitBlocks_partInv {σ : Type} [DecidableEq σ] {d : DFA σ} {X : List σ}
    {P : List (List σ)} (h : PartInv d P) : PartInv d (splitBlocks X P) := by
  obtain ⟨hblocks, hdisj, hcov, hemp⟩ := h
  refine ⟨?_, splitBlocks_pairwise hdisj, ?_, ?_⟩
  · intro B2 hB2
    obtain ⟨Y, hY, hform⟩ := splitBlocks_mem_source hB2
    rcases hform with rfl | rfl | rfl
    · exact hblocks _ hY
    · exact ⟨(hblocks Y hY).1.filter _, fun q hq =>
        (hblocks Y hY).2 q (List.mem_filter.mp hq).1⟩
    · exact ⟨(hblocks Y hY).1.filter _, fun q hq =>
        (hblocks Y hY).2 q (List.mem_filter.mp hq).1⟩
  · intro q hq
    obtain ⟨B, hB, hqB⟩ := hcov q hq
    exact splitBlocks_cover hB hqB
  · exact Nat.le_trans (splitBlocks_empties X P) hemp

theorem lset_filter_mem_eq_diff {σ : Type} [DecidableEq σ] (Y X : List σ) :
    lset (Y.filter (fun q => q ∈ X)) =
      lset Y \ lset (Y.filter (fun q => q ∉ X)) := by
  ext q
  simp only [lset, Set.mem_setOf_eq, Set.mem_diff, List.mem_filter,
    decide_eq_true_eq]
  by_cases hx : q ∈ X
  · simp [hx]
  · simp [hx]

theorem lset_filter_not_mem_eq_diff {σ : Type} [DecidableEq σ] (Y X : List σ) :
    lset (Y.filter (fun q => q ∉ X)) =
      lset Y \ lset (Y.filter (fun q => q ∈ X)) := by
  ext q
  simp only [lset, Set.mem_setOf_eq, Set.mem_diff, List.mem_filter,
    decide_eq_true_eq]
  by_cases hx : q ∈ X
  · simp [hx]
  · simp [hx]

theorem splitBlocks_pure {σ : Type} [DecidableEq σ] {X : List σ} {P : List (List σ)} :
    ∀ B1 ∈ splitBlocks X P, (∀ q ∈ B1, q ∈ X) ∨ (∀ q ∈ B1, q ∉ X) := by
  intro B1 hB1
  obtain ⟨Y, hY, hmem⟩ := List.mem_flatMap.mp hB1
  by_cases hs : Y.filter (fun q => q ∈ X) ≠ [] ∧ Y.filter (fun q => q ∉ X) ≠ []
  · rw [if_pos hs] at hmem
    rcases List.mem_cons.mp hmem with rfl | h1
    · left
      intro q hq
      simpa using (List.mem_filter.mp hq).2
    · rw [List.mem_singleton.mp h1]
      right
      intro q hq
      simpa using (List.mem_filter.mp hq).2
  · rw [if_neg hs] at hmem
    rw [List.mem_singleton.mp hmem]
    rw [not_and_or] at hs
    rcases hs with hs | hs
    · rw [not_not] at hs
      right
      intro q hq hqx
      have : q ∈ Y.filter (fun q => q ∈ X) := List.mem_filter.mpr ⟨hq, by simpa⟩
      rw [hs] at this
      exact List.not_mem_nil q this
    · rw [not_not] at hs
      left
      intro q hq
      by_contra hqx
      have : q ∈ Y.filter (fun q => q ∉ X) := List.mem_filter.mpr ⟨hq, by simpa⟩
      rw [hs] at this
      exact List.not_mem_nil q this

theorem stableWrt_splitBlocks_splitter {σ : Type} [DecidableEq σ] {d : DFA σ}
    {c : Char} {A : List σ} {P : List (List σ)}
    (hblocks : ∀ B ∈ splitBlocks (preimg d c A) P, ∀ q ∈ B, q ∈ d.states) :
    StableWrt d (splitBlocks (preimg d c A) P) c (lset A) := by
  intro B1 hB1
  rcases splitBlocks_pure B1 hB1 with h1 | h1
  · left
    intro q hq
    obtain ⟨_, t, hstep, htA⟩ := mem_preimg_iff.mp (h1 q hq)
    exact ⟨t, hstep, htA⟩
  · right
    intro q hq hpre
    obtain ⟨t, hstep, htA⟩ := hpre
    exact h1 q hq (mem_preimg_iff.mpr ⟨hblocks B1 hB1 q hq, t, hstep, htA⟩)

theorem blockUnion_splitBlocks {σ : Type} [DecidableEq σ] {X : List σ}
    {P : List (List σ)} {A2 : List σ} (h : isBlockUnion P A2) :
    isBlockUnion (splitBlocks X P) A2 := by
  intro q hq
  obtain ⟨B, hB, hqB, hBsub⟩ := h q hq
  by_cases hs : B.filter (fun q => q ∈ X) ≠ [] ∧ B.filter (fun q => q ∉ X) ≠ []
  · by_cases hx : q ∈ X
    · refine ⟨B.filter (fun q => q ∈ X), (splitBlocks_mem_split hB hs).1,
        List.mem_filter.mpr ⟨hqB, by simpa⟩, ?_⟩
      intro x hx2
      exact hBsub x (List.mem_filter.mp hx2).1
    · refine ⟨B.filter (fun q => q ∉ X), (splitBlocks_mem_split hB hs).2,
        List.mem_filter.mpr ⟨hqB, by simpa⟩, ?_⟩
      intro x hx2
      exact hBsub x (List.mem_filter.mp hx2).1
  · exact ⟨B, splitBlocks_mem_unsplit hB hs, hqB, hBsub⟩

theorem satSet_of_blockUnion {σ : Type} [DecidableEq σ] {d : DFA σ}
    {P : List (List σ)} {A : List σ} (hA : isBlockUnion P A) (hsat : SatInv d P) :
    SatSet d A := by
  intro t htA t' ht' heq
  obtain ⟨B, hB, htB, hBsub⟩ := hA t htA
  exact hBsub t' (hsat B hB t htB t' ht' heq)

theorem splitPass_maintains {σ : Type} [DecidableEq σ] {d : DFA σ} (hwf : WF d)
    (htot : TotalD d) {A : List σ} (hAsat : SatSet d A) {c0 : Char}
    (hc0 : c0 ∈ d.alphabet) (cs2 : List Char) {P W : List (List σ)}
    (hinv : BodyInv d A (c0 :: cs2) P W) :
    BodyInv d A cs2 (splitPass (preimg d c0 A) P W).1
      (splitPass (preimg d c0 A) P W).2 := by
  obtain ⟨hpart, hhomog, hsat, hWu, hcov⟩ := hinv
  have hfst : (splitPass (preimg d c0 A) P W).1 = splitBlocks (preimg d c0 A) P :=
    splitPass_fst _ P W
  have hpart1 : PartInv d (splitBlocks (preimg d c0 A) P) := splitBlocks_partInv hpart
  have hdisj := hpart.2.1
  have hblocks1 : ∀ B ∈ splitBlocks (preimg d c0 A) P, ∀ q ∈ B, q ∈ d.states :=
    fun B hB => (hpart1.1 B hB).2
  have href : Refines (splitBlocks (preimg d c0 A) P) P := splitBlocks_refines _ P
  have hstabA : StableWrt d (splitBlocks (preimg d c0 A) P) c0 (lset A) :=
    stableWrt_splitBlocks_splitter hblocks1
  have hW2sub : ∀ c, ∀ Z ∈ (splitPass (preimg d c0 A) P W).2,
      Z ∈ (if c ∈ cs2 then A :: (splitPass (preimg d c0 A) P W).2
        else (splitPass (preimg d c0 A) P W).2) := by
    intro c Z hZ
    by_cases hcc : c ∈ cs2
    · rw [if_pos hcc]
      exact List.mem_cons_of_mem _ hZ
    · rw [if_neg hcc]
      exact hZ
  have hWold : ∀ c, ∀ A1 ∈ W, Cov d (splitBlocks (preimg d c0 A) P)
      (if c ∈ cs2 then A :: (splitPass (preimg d c0 A) P W).2
        else (splitPass (preimg d c0 A) P W).2) c (lset A1) := by
    intro c A1 hA1
    rcases splitPass_W_covered hdisj A1 hA1 with ⟨A2, hA2, heq⟩ | ⟨Y, hY, heq, hi, hdd⟩
    · exact heq ▸ Cov.pending (hW2sub c A2 hA2)
    · have h1 : Cov d (splitBlocks (preimg d c0 A) P)
          (if c ∈ cs2 then A :: (splitPass (preimg d c0 A) P W).2
            else (splitPass (preimg d c0 A) P W).2) c
          (lset (Y.filter (fun q => q ∈ preimg d c0 A)) ∪
            lset (Y.filter (fun q => q ∉ preimg d c0 A))) :=
        Cov.union (Cov.pending (hW2sub c _ hi)) (Cov.pending (hW2sub c _ hdd))
      rw [← lset_eq_union_filters] at h1
      exact heq.symm ▸ h1
  have hWt : ∀ c ∈ d.alphabet, ∀ A0 ∈ (if c ∈ c0 :: cs2 then A :: W else W),
      Cov d (splitBlocks (preimg d c0 A) P)
        (if c ∈ cs2 then A :: (splitPass (preimg d c0 A) P W).2
          else (splitPass (preimg d c0 A) P W).2) c (lset A0) := by
    intro c hc A0 hA0
    by_cases hcc : c ∈ c0 :: cs2
    · rw [if_pos hcc] at hA0
      rcases List.mem_cons.mp hA0 with rfl | hA0w
      · by_cases hcs2 : c ∈ cs2
        · rw [if_pos hcs2]
          exact Cov.pending (List.mem_cons_self _ _)
        · have hcc0 : c = c0 := by
            rcases List.mem_cons.mp hcc with h | h
            · exact h
            · exact absurd h hcs2
          subst hcc0
          exact Cov.stable hstabA
      · exact hWold c A0 hA0w
    · rw [if_neg hcc] at hA0
      exact hWold c A0 hA0
  refine ⟨?_, ?_, ?_, ?_, ?_⟩
  · rw [hfst]
    exact hpart1
  · rw [hfst]
    exact splitBlocks_homog hhomog
  · rw [hfst]
    exact splitBlocks_satInv hsat (preimg_satClosed hwf htot hc0 hAsat)
      (fun B hB => (hpart.1 B hB).2)
  · intro B hB
    rw [hfst]
    rcases splitPass_W_source B hB with h1 | ⟨Y, hY, hs, h1⟩
    · exact blockUnion_splitBlocks (hWu B h1)
    · rcases h1 with rfl | rfl
      · intro q hq
        exact ⟨_, (splitBlocks_mem_split hY hs).1, hq, fun x hx => hx⟩
      · intro q hq
        exact ⟨_, (splitBlocks_mem_split hY hs).2, hq, fun x hx => hx⟩
  · intro c hc B1 hB1
    rw [hfst] at hB1
    rw [hfst]
    have hcovY : ∀ Y ∈ P, Cov d (splitBlocks (preimg d c0 A) P)
        (if c ∈ cs2 then A :: (splitPass (preimg d c0 A) P W).2
          else (splitPass (preimg d c0 A) P W).2) c (lset Y) := by
      intro Y hY
      exact cov_cut (hcov c hc Y hY) href (hWt c hc)
    obtain ⟨Y, hY, hmem⟩ := List.mem_flatMap.mp hB1
    by_cases hs : Y.filter (fun q => q ∈ preimg d c0 A) ≠ [] ∧
        Y.filter (fun q => q ∉ preimg d c0 A) ≠ []
    · rw [if_pos hs] at hmem
      have hpend := splitPass_W_part hdisj (W := W) Y hY hs
      rcases List.mem_cons.mp hmem with rfl | h1
      · rcases hpend with hp | hp
        · exact Cov.pending (hW2sub c _ hp)
        · have h2 := Cov.sdiff (hcovY Y hY) (Cov.pending (hW2sub c _ hp))
          rw [← lset_filter_mem_eq_diff] at h2
          exact h2
      · rw [List.mem_singleton.mp h1]
        rcases hpend with hp | hp
        · have h2 := Cov.sdiff (hcovY Y hY) (Cov.pending (hW2sub c _ hp))
          rw [← lset_filter_not_mem_eq_diff] at h2
          exact h2
        · exact Cov.pending (hW2sub c _ hp)
    · rw [if_neg hs] at hmem
      rw [List.mem_singleton.mp hmem]
      exact hcovY Y hY

theorem symbolsPass_maintains {σ : Type} [DecidableEq σ] {d : DFA σ} (hwf : WF d)
    (htot : TotalD d) {A : List σ} (hAsat : SatSet d A) :
    ∀ (cs : List Char), (∀ c ∈ cs, c ∈ d.alphabet) → ∀ (P W : List (List σ)),
      BodyInv d A cs P W →
      BodyInv d A [] (symbolsPass d A cs P W).1 (symbolsPass d A cs P W).2 := by
  intro cs
  induction cs with
  | nil =>
    intro _ P W h
    exact h
  | cons c0 cs2 ih =>
    intro hsub P W h
    have h1 := splitPass_maintains hwf htot hAsat (hsub c0 (List.mem_cons_self _ _)) cs2 h
    exact ih (fun c hc => hsub c (List.mem_cons_of_mem _ hc)) _ _ h1

theorem symbolsPass_count {σ : Type} [DecidableEq σ] (d : DFA σ) (A : List σ) :
    ∀ (cs : List Char) (P W : List (List σ)),
      (symbolsPass d A cs P W).2.length + P.length ≤
        W.length + (symbolsPass d A cs P W).1.length ∧
      P.length ≤ (symbolsPass d A cs P W).1.length := by
  intro cs
  induction cs with
  | nil =>
    intro P W
    exact ⟨Nat.le_refl _, Nat.le_refl _⟩
  | cons c0 cs2 ih =>
    intro P W
    simp only [symbolsPass]
    rw [splitPass_fst _ P W]
    have hc := splitPass_count (X := preimg d c0 A) (P := P) W
    have hg := splitBlocks_length_ge (preimg d c0 A) P
    have hih := ih (splitBlocks (preimg d c0 A) P) (splitPass (preimg d c0 A) P W).2
    constructor
    · have h1 := hih.1
      omega
    · have h2 := hih.2
      omega

theorem getLast?_spec {α : Type} {l : List α} {a : α} (h : l.getLast? = some a) :
    l.dropLast ++ [a] = l := by
  induction l with
  | nil => cases h
  | cons x xs ih =>
    cases xs with
    | nil =>
      have hx : x = a := by simpa [List.getLast?] using h
      simp [hx]
    | cons y ys =>
      have h' : (y :: ys).getLast? = some a := by
        rw [← List.getLast?_cons_cons (a := x)]
        exact h
      have h2 := ih h'
      rw [show (x :: y :: ys).dropLast = x :: (y :: ys).dropLast by simp [List.dropLast]]
      rw [List.cons_append, h2]

theorem getLast?_none_eq_nil {α : Type} {l : List α} (h : l.getLast? = none) :
    l = [] := by
  cases l with
  | nil => rfl
  | cons x xs =>
    exfalso
    revert h
    cases xs <;> simp [List.getLast?]

theorem hopInv_init {σ : Type} [DecidableEq σ] {d : DFA σ} (hwf : WF d)
    (htot : TotalD d) :
    HopInv d [d.accepting_states, d.states.filter (fun q => q ∉ d.accepting_states)]
      [d.accepting_states] := by
  have hFc : ∀ q, q ∈ d.states.filter (fun q => q ∉ d.accepting_states) ↔
      q ∈ d.states ∧ q ∉ d.accepting_states := by
    intro q
    rw [List.mem_filter]
    simp
  refine ⟨⟨?_, ?_, ?_, ?_⟩, ?_, ?_, ?_, ?_⟩
  · intro B hB
    rcases List.mem_cons.mp hB with rfl | hB1
    · exact ⟨hwf.2.1, hwf.2.2.1⟩
    · rw [List.mem_singleton.mp hB1]
      exact ⟨hwf.1.filter _, fun q hq => ((hFc q).mp hq).1⟩
  · refine List.pairwise_cons.mpr ⟨?_, List.pairwise_cons.mpr
      ⟨fun B hB => absurd hB (List.not_mem_nil _), List.Pairwise.nil⟩⟩
    intro B hB q hqF hqB
    rw [List.mem_singleton.mp hB] at hqB
    exact ((hFc q).mp hqB).2 hqF
  · intro q hq
    by_cases hF : q ∈ d.accepting_states
    · exact ⟨d.accepting_states, List.mem_cons_self _ _, hF⟩
    · exact ⟨_, List.mem_cons_of_mem _ (List.mem_cons_self _ _),
        (hFc q).mpr ⟨hq, hF⟩⟩
  · exact Nat.le_trans (List.length_filter_le _ _) (by simp)
  · intro B hB
    rcases List.mem_cons.mp hB with rfl | hB1
    · left
      exact fun q hq => hq
    · rw [List.mem_singleton.mp hB1]
      right
      exact fun q hq => ((hFc q).mp hq).2
  · intro B hB
    rcases List.mem_cons.mp hB with rfl | hB1
    · intro t htA t' ht' heq
      have h0 := heq [] (fun c hc => absurd hc (List.not_mem_nil c))
      unfold accepts_st at h0
      simp only [accepts_from] at h0
      have h1 : decide (t' ∈ d.accepting_states) = true := by
        rw [← h0]
        exact decide_eq_true htA
      exact of_decide_eq_true h1
    · rw [List.mem_singleton.mp hB1]
      intro t htA t' ht' heq
      obtain ⟨hts, htF⟩ := (hFc t).mp htA
      refine (hFc t').mpr ⟨ht', ?_⟩
      intro ht'F
      have h0 := heq [] (fun c hc => absurd hc (List.not_mem_nil c))
      unfold accepts_st at h0
      simp only [accepts_from] at h0
      rw [decide_eq_true ht'F] at h0
      exact htF (of_decide_eq_true h0)
  · intro A hA
    rw [List.mem_singleton.mp hA]
    intro q hq
    exact ⟨d.accepting_states, List.mem_cons_self _ _, hq, fun x hx => hx⟩
  · intro c hc B hB
    rcases List.mem_cons.mp hB with rfl | hB1
    · exact Cov.pending (List.mem_cons_self _ _)
    · rw [List.mem_singleton.mp hB1]
      have hstabQ : StableWrt d
          [d.accepting_states, d.states.filter (fun q => q ∉ d.accepting_states)]
          c (lset d.states) := by
        intro B hB
        left
        intro q hq
        have hqs : q ∈ d.states := by
          rcases List.mem_cons.mp hB with rfl | hB1
          · exact hwf.2.2.1 q hq
          · rw [List.mem_singleton.mp hB1] at hq
            exact ((hFc q).mp hq).1
        obtain ⟨t, ht⟩ := Option.isSome_iff_exists.mp (htot q hqs c hc)
        exact ⟨t, ht, step_mem_states hwf ht⟩
      have h1 := Cov.sdiff (W := [d.accepting_states]) (c := c)
        (Cov.stable hstabQ) (Cov.pending (List.mem_cons_self _ _))
      have heq : lset (d.states.filter (fun q => q ∉ d.accepting_states)) =
          lset d.states \ lset d.accepting_states :=
        lset_filter_not_mem d.states d.accepting_states
      rw [heq]
      exact h1

theorem bodyInv_of_hopInv {σ : Type} [DecidableEq σ] {d : DFA σ}
    {P W : List (List σ)} {A : List σ} (hinv : HopInv d P W)
    (hWl : W.getLast? = some A) : BodyInv d A d.alphabet P W.dropLast := by
  obtain ⟨hpart, hhomog, hsat, hWu, hcov⟩ := hinv
  have hsplit : W.dropLast ++ [A] = W := getLast?_spec hWl
  have hmemW : ∀ x, x ∈ W ↔ x ∈ A :: W.dropLast := by
    intro x
    constructor
    · intro hx
      rw [← hsplit] at hx
      rcases List.mem_append.mp hx with h | h
      · exact List.mem_cons_of_mem _ h
      · exact (List.mem_singleton.mp h) ▸ List.mem_cons_self _ _
    · intro hx
      rcases List.mem_cons.mp hx with rfl | h
      · rw [← hsplit]
        exact List.mem_append_right _ (List.mem_singleton.mpr rfl)
      · rw [← hsplit]
        exact List.mem_append_left _ h
  refine ⟨hpart, hhomog, hsat, ?_, ?_⟩
  · intro B hB
    exact hWu B ((hmemW B).mpr (List.mem_cons_of_mem _ hB))
  · intro c hc B hB
    rw [if_pos hc]
    exact cov_mono_W (fun x hx => (hmemW x).mp hx) (hcov c hc B hB)

theorem hopInv_of_bodyInv_nil {σ : Type} [DecidableEq σ] {d : DFA σ}
    {P W : List (List σ)} {A : List σ} (h : BodyInv d A [] P W) : HopInv d P W := by
  obtain ⟨hpart, hhomog, hsat, hWu, hcov⟩ := h
  refine ⟨hpart, hhomog, hsat, hWu, ?_⟩
  intro c hc B hB
  have h1 := hcov c hc B hB
  rw [if_neg (List.not_mem_nil c)] at h1
  exact h1

theorem hopcroftLoop_spec {σ : Type} [DecidableEq σ] {d : DFA σ} (hwf : WF d)
    (htot : TotalD d) :
    ∀ (fuel : Nat) (P W : List (List σ)), HopInv d P W →
      hopMeasure d P W ≤ fuel →
      PartInv d (hopcroftLoop d fuel P W) ∧ Homog d (hopcroftLoop d fuel P W) ∧
      SatInv d (hopcroftLoop d fuel P W) ∧
      ∀ c ∈ d.alphabet, ∀ B ∈ hopcroftLoop d fuel P W,
        StableWrt d (hopcroftLoop d fuel P W) c (lset B) := by
  intro fuel
  induction fuel with
  | zero =>
    intro P W hinv hm
    have hW : W = [] := by
      have h1 : W.length = 0 := by
        unfold hopMeasure at hm
        omega
      exact List.length_eq_zero.mp h1
    subst hW
    refine ⟨hinv.1, hinv.2.1, hinv.2.2.1, ?_⟩
    intro c hc B hB
    exact cov_stable_of_nil (hinv.2.2.2.2 c hc B hB)
  | succ fuel ih =>
    intro P W hinv hm
    cases hWl : W.getLast? with
    | none =>
      have hW : W = [] := getLast?_none_eq_nil hWl
      subst hW
      have hloop : hopcroftLoop d (fuel + 1) P [] = P := by
        unfold hopcroftLoop
        rfl
      rw [hloop]
      refine ⟨hinv.1, hinv.2.1, hinv.2.2.1, ?_⟩
      intro c hc B hB
      exact cov_stable_of_nil (hinv.2.2.2.2 c hc B hB)
    | some A =>
      have hsplit : W.dropLast ++ [A] = W := getLast?_spec hWl
      have hAW : A ∈ W := by
        rw [← hsplit]
        exact List.mem_append_right _ (List.mem_singleton.mpr rfl)
      have hAsat : SatSet d A :=
        satSet_of_blockUnion (hinv.2.2.2.1 A hAW) hinv.2.2.1
      have hbody := bodyInv_of_hopInv hinv hWl
      have hres := symbolsPass_maintains hwf htot hAsat d.alphabet
        (fun c hc => hc) P W.dropLast hbody
      have hinv' := hopInv_of_bodyInv_nil hres
      have hcount := symbolsPass_count d A d.alphabet P W.dropLast
      have hsize : (symbolsPass d A d.alphabet P W.dropLast).1.length ≤
          d.states.length + 2 := partInv_length_le hinv'.1
      have hlen : W.dropLast.length + 1 = W.length := by
        rw [← hsplit]
        simp
      have hmeas : hopMeasure d (symbolsPass d A d.alphabet P W.dropLast).1
          (symbolsPass d A d.alphabet P W.dropLast).2 ≤ fuel := by
        have hP0 : P.length ≤ d.states.length + 2 := partInv_length_le hinv.1
        unfold hopMeasure at hm ⊢
        obtain ⟨hc1, hc2⟩ := hcount
        omega
      have hloop : hopcroftLoop d (fuel + 1) P W =
          hopcroftLoop d fuel (symbolsPass d A d.alphabet P W.dropLast).1
            (symbolsPass d A d.alphabet P W.dropLast).2 := by
        conv_lhs => rw [hopcroftLoop]
        rw [hWl]
      rw [hloop]
      exact ih _ _ hinv' hmeas

/-! ### The quotient construction of `minimize` -/

theorem findBlockIdx_isSome_of_mem {σ : Type} [DecidableEq σ] {P : List (List σ)}
    {B : List σ} {q : σ} (hB : B ∈ P) (hq : q ∈ B) :
    ∃ j, findBlockIdx P q = some j := by
  induction P with
  | nil => cases hB
  | cons C P ih =>
    by_cases hC : q ∈ C
    · exact ⟨0, by rw [findBlockIdx, if_pos hC]⟩
    · rcases List.mem_cons.mp hB with rfl | hB2
      · exact absurd hq hC
      · obtain ⟨j, hj⟩ := ih hB2
        exact ⟨j + 1, by rw [findBlockIdx, if_neg hC, hj]; rfl⟩

theorem findBlockIdx_spec {σ : Type} [DecidableEq σ] {P : List (List σ)} {q : σ} :
    ∀ {j : Nat}, findBlockIdx P q = some j → ∃ B, P[j]? = some B ∧ q ∈ B := by
  induction P with
  | nil => intro j h; cases h
  | cons C P ih =>
    intro j h
    rw [findBlockIdx] at h
    by_cases hC : q ∈ C
    · rw [if_pos hC] at h
      injection h with h
      exact ⟨C, by rw [← h]; exact ⟨List.getElem?_cons_zero, hC⟩⟩
    · rw [if_neg hC] at h
      cases hfi : findBlockIdx P q with
      | none => rw [hfi] at h; cases h
      | some j' =>
        rw [hfi] at h
        injection h with h
        obtain ⟨B, hB, hqB⟩ := ih hfi
        refine ⟨B, ?_, hqB⟩
        rw [← h, List.getElem?_cons_succ]
        exact hB

theorem findBlockIdx_of_getElem {σ : Type} [DecidableEq σ] {P : List (List σ)}
    (hdisj : List.Pairwise (fun B C => ∀ q, q ∈ B → q ∉ C) P) {B : List σ} {q : σ} :
    ∀ {j : Nat}, P[j]? = some B → q ∈ B → findBlockIdx P q = some j := by
  induction P with
  | nil => intro j h; cases h
  | cons C P ih =>
    intro j h hq
    cases j with
    | zero =>
      rw [List.getElem?_cons_zero] at h
      injection h with h
      subst h
      rw [findBlockIdx, if_pos hq]
    | succ j =>
      rw [List.getElem?_cons_succ] at h
      have hBP : B ∈ P := List.getElem?_mem h
      have hqC : q ∉ C := fun hqC =>
        (List.pairwise_cons.mp hdisj).1 B hBP q hqC hq
      rw [findBlockIdx, if_neg hqC, ih (List.pairwise_cons.mp hdisj).2 h hq]
      rfl

theorem findBlockIdx_get {σ : Type} [DecidableEq σ] {P : List (List σ)}
    (hdisj : List.Pairwise (fun B C => ∀ q, q ∈ B → q ∉ C) P) {B : List σ} {q : σ}
    {j : Nat} (h : findBlockIdx P q = some j) (hB : B ∈ P) (hq : q ∈ B) :
    P[j]? = some B := by
  obtain ⟨k, hk⟩ := List.mem_iff_getElem?.mp hB
  have := findBlockIdx_of_getElem hdisj hk hq
  rw [h] at this
  injection this with this
  rw [this]
  exact hk

theorem findBlockIdx_congr {σ : Type} [DecidableEq σ] {P : List (List σ)}
    (hdisj : List.Pairwise (fun B C => ∀ q, q ∈ B → q ∉ C) P) {B : List σ}
    (hB : B ∈ P) {q q' : σ} (hq : q ∈ B) (hq' : q' ∈ B) :
    findBlockIdx P q = findBlockIdx P q' := by
  obtain ⟨k, hk⟩ := List.mem_iff_getElem?.mp hB
  rw [findBlockIdx_of_getElem hdisj hk hq, findBlockIdx_of_getElem hdisj hk hq']

theorem length_le_of_inj_map {α β : Type} [DecidableEq β] (l : List α) (l2 : List β)
    (f : α → β) (hinj : ∀ x ∈ l, ∀ y ∈ l, f x = f y → x = y) (hnd : l.Nodup)
    (hsub : ∀ x ∈ l, f x ∈ l2) : l.length ≤ l2.length := by
  have h1 : (l.map f).Nodup := List.Nodup.map_on hinj hnd
  have h2 : l.map f ⊆ l2 := by
    intro y hy
    obtain ⟨x, hx, rfl⟩ := List.mem_map.mp hy
    exact hsub x hx
  have h3 := (List.subperm_of_subset h1 h2).length_le
  rw [List.length_map] at h3
  exact h3

theorem wf_init {σ : Type} [DecidableEq σ] (alph : List Char) :
    WF (DFA.init alph : DFA σ) :=
  ⟨List.nodup_nil, List.nodup_nil, fun x hx => absurd hx (List.not_mem_nil x),
    List.nodup_nil, fun e he => absurd he (List.not_mem_nil e)⟩

theorem wf_add_state {σ : Type} [DecidableEq σ] {d : DFA σ} (hwf : WF d) (s : σ)
    (f : Bool) : WF (add_state d s f) := by
  obtain ⟨h1, h2, h3, h4, h5⟩ := hwf
  refine ⟨nodup_insertS h1 s, ?_, ?_, h4, ?_⟩
  · cases f
    · exact h2
    · exact nodup_insertS h2 s
  · intro x hx
    cases f with
    | false => exact insertS_subset s (h3 x hx)
    | true =>
      rcases mem_insertS.mp hx with hx2 | rfl
      · exact insertS_subset s (h3 x hx2)
      · exact self_mem_insertS _ _
  · intro e he
    exact ⟨insertS_subset s (h5 e he).1, insertS_subset s (h5 e he).2.1,
      (h5 e he).2.2⟩

theorem wf_set_start {σ : Type} [DecidableEq σ] {d : DFA σ} (hwf : WF d) (s : σ) :
    WF (set_start d s) := by
  obtain ⟨h1, h2, h3, h4, h5⟩ := hwf
  refine ⟨nodup_insertS h1 s, h2, ?_, h4, ?_⟩
  · intro x hx
    exact insertS_subset s (h3 x hx)
  · intro e he
    exact ⟨insertS_subset s (h5 e he).1, insertS_subset s (h5 e he).2.1,
      (h5 e he).2.2⟩

theorem addBlock_fold_frame {σ : Type} [DecidableEq σ] (F : List σ) (i : Nat) :
    ∀ (B : List σ) (n : DFA Nat),
      (B.foldl (fun a s => add_state a i (decide (s ∈ F))) n).alphabet = n.alphabet ∧
      (B.foldl (fun a s => add_state a i (decide (s ∈ F))) n).start_state =
        n.start_state ∧
      (B.foldl (fun a s => add_state a i (decide (s ∈ F))) n).transitions =
        n.transitions := by
  intro B
  induction B with
  | nil => exact fun n => ⟨rfl, rfl, rfl⟩
  | cons s B ih =>
    intro n
    rw [List.foldl_cons]
    exact ih (add_state n i (decide (s ∈ F)))

theorem addBlock_fold_wf {σ : Type} [DecidableEq σ] (F : List σ) (i : Nat) :
    ∀ (B : List σ) (n : DFA Nat), WF n →
      WF (B.foldl (fun a s => add_state a i (decide (s ∈ F))) n) := by
  intro B
  induction B with
  | nil => exact fun n h => h
  | cons s B ih =>
    intro n hn
    rw [List.foldl_cons]
    exact ih _ (wf_add_state hn i _)

theorem addBlock_fold_states_of_mem {σ : Type} [DecidableEq σ] (F : List σ) (i : Nat) :
    ∀ (B : List σ) (n : DFA Nat), i ∈ n.states →
      (B.foldl (fun a s => add_state a i (decide (s ∈ F))) n).states = n.states := by
  intro B
  induction B with
  | nil => exact fun n _ => rfl
  | cons s B ih =>
    intro n hi
    rw [List.foldl_cons]
    have hst : (add_state n i (decide (s ∈ F))).states = n.states := by
      show insertS n.states i = n.states
      rw [insertS, if_pos hi]
    rw [ih _ (by rw [hst]; exact hi), hst]

theorem addBlock_fold_states {σ : Type} [DecidableEq σ] (F : List σ) (i : Nat)
    (B : List σ) (n : DFA Nat) :
    (B.foldl (fun a s => add_state a i (decide (s ∈ F))) n).states =
      if B.isEmpty then n.states else insertS n.states i := by
  cases B with
  | nil => rfl
  | cons s B =>
    rw [List.foldl_cons]
    have hst : (add_state n i (decide (s ∈ F))).states = insertS n.states i := rfl
    rw [addBlock_fold_states_of_mem F i B _ (by rw [hst]; exact self_mem_insertS _ _),
      hst]
    rfl

theorem addBlock_fold_accepting {σ : Type} [DecidableEq σ] (F : List σ) (i : Nat) :
    ∀ (B : List σ) (n : DFA Nat) (x : Nat),
      (x ∈ (B.foldl (fun a s => add_state a i (decide (s ∈ F))) n).accepting_states ↔
        x ∈ n.accepting_states ∨ (x = i ∧ ∃ s ∈ B, s ∈ F)) := by
  intro B
  induction B with
  | nil => simp
  | cons s B ih =>
    intro n x
    rw [List.foldl_cons, ih]
    have hacc : x ∈ (add_state n i (decide (s ∈ F))).accepting_states ↔
        x ∈ n.accepting_states ∨ (x = i ∧ s ∈ F) := by
      show x ∈ (if decide (s ∈ F) then insertS n.accepting_states i
        else n.accepting_states) ↔ _
      by_cases hs : s ∈ F
      · rw [if_pos (by rwa [decide_eq_true_iff]), mem_insertS]
        constructor
        · rintro (h | rfl)
          · exact Or.inl h
          · exact Or.inr ⟨rfl, hs⟩
        · rintro (h | ⟨rfl, _⟩)
          · exact Or.inl h
          · exact Or.inr rfl
      · rw [if_neg (by simpa using hs)]
        constructor
        · exact fun h => Or.inl h
        · rintro (h | ⟨rfl, hs2⟩)
          · exact h
          · exact absurd hs2 hs
    rw [hacc]
    constructor
    · rintro ((h | ⟨rfl, hs⟩) | ⟨rfl, s', hs', hF⟩)
      · exact Or.inl h
      · exact Or.inr ⟨rfl, s, List.mem_cons_self _ _, hs⟩
      · exact Or.inr ⟨rfl, s', List.mem_cons_of_mem _ hs', hF⟩
    · rintro (h | ⟨rfl, s', hs', hF⟩)
      · exact Or.inl (Or.inl h)
      · rcases List.mem_cons.mp hs' with rfl | hs2
        · exact Or.inl (Or.inr ⟨rfl, hF⟩)
        · exact Or.inr ⟨rfl, s', hs2, hF⟩

theorem enumFold_frame {σ : Type} [DecidableEq σ] (F : List σ) :
    ∀ (L : List (Nat × List σ)) (n : DFA Nat),
      (L.foldl (fun a ib => addBlockStates F a ib) n).alphabet = n.alphabet ∧
      (L.foldl (fun a ib => addBlockStates F a ib) n).start_state = n.start_state ∧
      (L.foldl (fun a ib => addBlockStates F a ib) n).transitions = n.transitions := by
  intro L
  induction L with
  | nil => exact fun n => ⟨rfl, rfl, rfl⟩
  | cons p L ih =>
    intro n
    rw [List.foldl_cons]
    obtain ⟨h1, h2, h3⟩ := ih (addBlockStates F n p)
    obtain ⟨g1, g2, g3⟩ := addBlock_fold_frame F p.1 p.2 n
    exact ⟨h1.trans g1, h2.trans g2, h3.trans g3⟩

theorem enumFold_wf {σ : Type} [DecidableEq σ] (F : List σ) :
    ∀ (L : List (Nat × List σ)) (n : DFA Nat), WF n →
      WF (L.foldl (fun a ib => addBlockStates F a ib) n) := by
  intro L
  induction L with
  | nil => exact fun n h => h
  | cons p L ih =>
    intro n hn
    rw [List.foldl_cons]
    exact ih _ (addBlock_fold_wf F p.1 p.2 n hn)

theorem enumFold_states {σ : Type} [DecidableEq σ] (F : List σ) :
    ∀ (L : List (Nat × List σ)) (n : DFA Nat),
      (∀ p ∈ L, p.1 ∉ n.states) → (L.map Prod.fst).Nodup →
      (L.foldl (fun a ib => addBlockStates F a ib) n).states =
        n.states ++ (L.filter (fun p => !p.2.isEmpty)).map Prod.fst := by
  intro L
  induction L with
  | nil => intro n _ _; simp
  | cons p L ih =>
    intro n hfresh hnd
    rw [List.foldl_cons]
    have hst : (addBlockStates F n p).states =
        if p.2.isEmpty then n.states else n.states ++ [p.1] := by
      have := addBlock_fold_states F p.1 p.2 n
      rw [insertS, if_neg (hfresh p (List.mem_cons_self _ _))] at this
      exact this
    have hnd2 : (L.map Prod.fst).Nodup := (List.nodup_cons.mp hnd).2
    cases hEmp : p.2.isEmpty with
    | true =>
      rw [if_pos (by rw [hEmp])] at hst
      have hres := ih (addBlockStates F n p)
        (fun p' hp' => by rw [hst]; exact hfresh p' (List.mem_cons_of_mem _ hp')) hnd2
      rw [hres, hst, List.filter_cons]
      rw [hEmp]
      rfl
    | false =>
      rw [if_neg (by rw [hEmp]; exact Bool.false_ne_true)] at hst
      have hfresh2 : ∀ p' ∈ L, p'.1 ∉ (addBlockStates F n p).states := by
        intro p' hp'
        rw [hst]
        intro hmem
        rcases List.mem_append.mp hmem with h | h
        · exact hfresh p' (List.mem_cons_of_mem _ hp') h
        · have hp1 : p'.1 = p.1 := List.mem_singleton.mp h
          have := (List.nodup_cons.mp hnd).1
          exact this (hp1 ▸ List.mem_map_of_mem Prod.fst hp')
      rw [ih (addBlockStates F n p) hfresh2 hnd2, hst, List.filter_cons]
      rw [hEmp]
      show (n.states ++ [p.1]) ++ _ = n.states ++ (p.1 :: _)
      rw [List.append_assoc, List.singleton_append]

theorem enumFold_accepting {σ : Type} [DecidableEq σ] (F : List σ) :
    ∀ (L : List (Nat × List σ)) (n : DFA Nat) (x : Nat),
      (x ∈ (L.foldl (fun a ib => addBlockStates F a ib) n).accepting_states ↔
        x ∈ n.accepting_states ∨ ∃ p ∈ L, x = p.1 ∧ ∃ s ∈ p.2, s ∈ F) := by
  intro L
  induction L with
  | nil => simp
  | cons p L ih =>
    intro n x
    rw [List.foldl_cons, ih]
    have hhead : x ∈ (addBlockStates F n p).accepting_states ↔
        x ∈ n.accepting_states ∨ (x = p.1 ∧ ∃ s ∈ p.2, s ∈ F) :=
      addBlock_fold_accepting F p.1 p.2 n x
    rw [hhead]
    constructor
    · rintro ((h | ⟨rfl, hs⟩) | ⟨p', hp', hx⟩)
      · exact Or.inl h
      · exact Or.inr ⟨p, List.mem_cons_self _ _, rfl, hs⟩
      · exact Or.inr ⟨p', List.mem_cons_of_mem _ hp', hx⟩
    · rintro (h | ⟨p', hp', hx⟩)
      · exact Or.inl (Or.inl h)
      · rcases List.mem_cons.mp hp' with rfl | hp2
        · exact Or.inl (Or.inr hx)
        · exact Or.inr ⟨p', hp2, hx⟩

theorem foldl_flatMap {α β γ : Type} (g : α → List β) (f : γ → β → γ) :
    ∀ (l : List α) (init : γ),
      (l.flatMap g).foldl f init = l.foldl (fun a q => (g q).foldl f a) init := by
  intro l
  induction l with
  | nil => intro init; rfl
  | cons a l ih =>
    intro init
    rw [List.flatMap_cons, List.foldl_append, List.foldl_cons, ih]

theorem copyTransitions_eq_pairs {σ : Type} [DecidableEq σ] (d : DFA σ)
    (Pf : List (List σ)) (n : DFA Nat) :
    copyTransitions d Pf n =
      (statePairs d).foldl (fun acc qc => copyStep d Pf acc qc.1 qc.2) n := by
  unfold copyTransitions statePairs
  rw [foldl_flatMap]
  have h : ∀ (a : DFA Nat) (q : σ),
      ((d.alphabet.map (fun c => (q, c))).foldl
        (fun acc qc => copyStep d Pf acc qc.1 qc.2) a) =
      d.alphabet.foldl (fun acc2 c => copyStep d Pf acc2 q c) a := by
    intro a q
    rw [List.foldl_map]
  simp only [h]

theorem mem_statePairs {σ : Type} (d : DFA σ) (qc : σ × Char) :
    qc ∈ statePairs d ↔ qc.1 ∈ d.states ∧ qc.2 ∈ d.alphabet := by
  unfold statePairs
  rw [List.mem_flatMap]
  constructor
  · rintro ⟨q, hq, hmem⟩
    obtain ⟨c, hc, hpair⟩ := List.mem_map.mp hmem
    rw [← hpair]
    exact ⟨hq, hc⟩
  · rintro ⟨h1, h2⟩
    exact ⟨qc.1, h1, List.mem_map.mpr ⟨qc.2, h2, rfl⟩⟩

theorem copyStep_cases {σ : Type} [DecidableEq σ] (d : DFA σ) (Pf : List (List σ))
    (acc : DFA Nat) (q : σ) (c : Char) :
    copyStep d Pf acc q c = acc ∨
    ∃ t mq mn, step d q c = some t ∧ findBlockIdx Pf q = some mq ∧
      findBlockIdx Pf t = some mn ∧ c ∈ acc.alphabet ∧
      copyStep d Pf acc q c =
        { acc with states := insertS (insertS acc.states mq) mn,
                   transitions := tupdate acc.transitions mq c mn } := by
  cases hstep : step d q c with
  | none => left; unfold copyStep; rw [hstep]
  | some t =>
    cases hfq : findBlockIdx Pf q with
    | none => left; unfold copyStep; simp only [hstep, hfq]
    | some mq =>
      cases hft : findBlockIdx Pf t with
      | none => left; unfold copyStep; simp only [hstep, hfq, hft]
      | some mn =>
        by_cases hc : c ∈ acc.alphabet
        · right
          refine ⟨t, mq, mn, rfl, rfl, hft, hc, ?_⟩
          unfold copyStep
          simp only [hstep, hfq, hft]
          unfold add_transition
          rw [if_pos hc]
        · left
          unfold copyStep
          simp only [hstep, hfq, hft]
          unfold add_transition
          rw [if_neg hc]

theorem copyStep_frame {σ : Type} [DecidableEq σ] (d : DFA σ) (Pf : List (List σ))
    (acc : DFA Nat) (q : σ) (c : Char) :
    (copyStep d Pf acc q c).alphabet = acc.alphabet ∧
    (copyStep d Pf acc q c).accepting_states = acc.accepting_states ∧
    (copyStep d Pf acc q c).start_state = acc.start_state := by
  rcases copyStep_cases d Pf acc q c with heq | ⟨t, mq, mn, _, _, _, _, heq⟩ <;>
    rw [heq] <;> exact ⟨rfl, rfl, rfl⟩

theorem tupdate_keys_nodup {σ : Type} [DecidableEq σ] {t : List ((σ × Char) × σ)}
    (h : (t.map (fun e => e.1)).Nodup) (q : σ) (c : Char) (v : σ) :
    ((tupdate t q c v).map (fun e => e.1)).Nodup := by
  unfold tupdate
  by_cases hf : (t.find? (fun e => e.1 = (q, c))).isSome
  · rw [if_pos hf, List.map_map]
    have hcong : t.map ((fun (e : (σ × Char) × σ) => e.1) ∘
        (fun e => if e.1 = (q, c) then ((q, c), v) else e)) =
        t.map (fun e => e.1) := by
      refine List.map_congr_left ?_
      intro e _
      by_cases h2 : e.1 = (q, c)
      · simp [Function.comp, h2]
      · simp [Function.comp, h2]
    rw [hcong]
    exact h
  · rw [if_neg hf, List.map_append]
    have hnone : t.find? (fun e => e.1 = (q, c)) = none :=
      Option.not_isSome_iff_eq_none.mp hf
    have hnotmem : (q, c) ∉ t.map (fun e => e.1) := by
      intro hmem
      obtain ⟨e, he, heq⟩ := List.mem_map.mp hmem
      have := List.find?_eq_none.mp hnone e he
      simp only [decide_eq_true_eq] at this
      exact this heq
    refine List.Nodup.append h (List.nodup_singleton _) ?_
    intro a hal has
    rw [List.mem_map] at has
    obtain ⟨e, he, heq⟩ := has
    have : e = ((q, c), v) := List.mem_singleton.mp he
    rw [this] at heq
    rw [← heq] at hal
    exact hnotmem hal

theorem copyStep_wf {σ : Type} [DecidableEq σ] {d : DFA σ} {Pf : List (List σ)}
    {acc : DFA Nat} (hwf : WF acc) (q : σ) (c : Char) :
    WF (copyStep d Pf acc q c) := by
  rcases copyStep_cases d Pf acc q c with heq | ⟨t, mq, mn, _, _, _, hc, heq⟩
  · rw [heq]; exact hwf
  · rw [heq]
    obtain ⟨h1, h2, h3, h4, h5⟩ := hwf
    refine ⟨nodup_insertS (nodup_insertS h1 mq) mn, h2, ?_, ?_, ?_⟩
    · intro x hx
      exact insertS_subset mn (insertS_subset mq (h3 x hx))
    · exact tupdate_keys_nodup h4 mq c mn
    · intro e he
      rcases mem_tupdate he with he2 | he2
      · exact ⟨insertS_subset mn (insertS_subset mq (h5 e he2).1),
          insertS_subset mn (insertS_subset mq (h5 e he2).2.1), (h5 e he2).2.2⟩
      · rw [he2]
        exact ⟨insertS_subset mn (self_mem_insertS _ _), self_mem_insertS _ _, hc⟩

theorem copyStep_states {σ : Type} [DecidableEq σ] {d : DFA σ} {Pf : List (List σ)}
    {acc : DFA Nat} (hwf : WF d) {q : σ} (hq : q ∈ d.states) (c : Char)
    (Hidx : ∀ x ∈ d.states, ∀ j, findBlockIdx Pf x = some j → j ∈ acc.states) :
    (copyStep d Pf acc q c).states = acc.states := by
  rcases copyStep_cases d Pf acc q c with heq | ⟨t, mq, mn, hstep, hfq, hft, _, heq⟩
  · rw [heq]
  · rw [heq]
    have h1 : mq ∈ acc.states := Hidx q hq mq hfq
    have h2 : mn ∈ acc.states := Hidx t (step_mem_states hwf hstep) mn hft
    have e1 : insertS acc.states mq = acc.states := by rw [insertS, if_pos h1]
    have e2 : insertS acc.states mn = acc.states := by rw [insertS, if_pos h2]
    show insertS (insertS acc.states mq) mn = acc.states
    rw [e1, e2]

theorem pairsFold_frame {σ : Type} [DecidableEq σ] (d : DFA σ) (Pf : List (List σ)) :
    ∀ (L : List (σ × Char)) (n : DFA Nat),
      ((L.foldl (fun acc qc => copyStep d Pf acc qc.1 qc.2) n).alphabet = n.alphabet ∧
       (L.foldl (fun acc qc => copyStep d Pf acc qc.1 qc.2) n).accepting_states =
         n.accepting_states ∧
       (L.foldl (fun acc qc => copyStep d Pf acc qc.1 qc.2) n).start_state =
         n.start_state) := by
  intro L
  induction L with
  | nil => exact fun n => ⟨rfl, rfl, rfl⟩
  | cons qc L ih =>
    intro n
    rw [List.foldl_cons]
    obtain ⟨h1, h2, h3⟩ := ih (copyStep d Pf n qc.1 qc.2)
    obtain ⟨g1, g2, g3⟩ := copyStep_frame d Pf n qc.1 qc.2
    exact ⟨h1.trans g1, h2.trans g2, h3.trans g3⟩

theorem pairsFold_wf {σ : Type} [DecidableEq σ] (d : DFA σ) (Pf : List (List σ)) :
    ∀ (L : List (σ × Char)) (n : DFA Nat), WF n →
      WF (L.foldl (fun acc qc => copyStep d Pf acc qc.1 qc.2) n) := by
  intro L
  induction L with
  | nil => exact fun n h => h
  | cons qc L ih =>
    intro n hn
    rw [List.foldl_cons]
    exact ih _ (copyStep_wf hn qc.1 qc.2)

theorem pairsFold_states {σ : Type} [DecidableEq σ] {d : DFA σ} {Pf : List (List σ)}
    (hwf : WF d) :
    ∀ (L : List (σ × Char)) (n : DFA Nat), (∀ qc ∈ L, qc.1 ∈ d.states) →
      (∀ x ∈ d.states, ∀ j, findBlockIdx Pf x = some j → j ∈ n.states) →
      (L.foldl (fun acc qc => copyStep d Pf acc qc.1 qc.2) n).states = n.states := by
  intro L
  induction L with
  | nil => exact fun n _ _ => rfl
  | cons qc L ih =>
    intro n hL Hidx
    rw [List.foldl_cons]
    have hst : (copyStep d Pf n qc.1 qc.2).states = n.states :=
      copyStep_states hwf (hL qc (List.mem_cons_self _ _)) qc.2 Hidx
    rw [ih (copyStep d Pf n qc.1 qc.2)
      (fun qc' hqc' => hL qc' (List.mem_cons_of_mem _ hqc'))
      (fun x hx j hj => by rw [hst]; exact Hidx x hx j hj), hst]

theorem copyStep_tlookup_write {σ : Type} [DecidableEq σ] {d : DFA σ}
    {Pf : List (List σ)} {acc : DFA Nat} {q : σ} {c : Char} {t : σ} {j v : Nat}
    (hstep : step d q c = some t) (hfq : findBlockIdx Pf q = some j)
    (hft : findBlockIdx Pf t = some v) (hc : c ∈ acc.alphabet) :
    tlookup (copyStep d Pf acc q c).transitions j c = some v := by
  unfold copyStep
  simp only [hstep, hfq, hft]
  unfold add_transition
  rw [if_pos hc]
  exact tlookup_tupdate_self acc.transitions j c v

theorem copyStep_tlookup_cases {σ : Type} [DecidableEq σ] (d : DFA σ)
    (Pf : List (List σ)) (acc : DFA Nat) (q : σ) (c : Char) (j0 : Nat) (c0 : Char) :
    tlookup (copyStep d Pf acc q c).transitions j0 c0 =
      tlookup acc.transitions j0 c0 ∨
    (c = c0 ∧ ∃ t mn, step d q c = some t ∧ findBlockIdx Pf q = some j0 ∧
      findBlockIdx Pf t = some mn ∧
      tlookup (copyStep d Pf acc q c).transitions j0 c0 = some mn) := by
  rcases copyStep_cases d Pf acc q c with heq | ⟨t, mq, mn, hstep, hfq, hft, hc, heq⟩
  · left; rw [heq]
  · by_cases hkey : mq = j0 ∧ c = c0
    · obtain ⟨rfl, rfl⟩ := hkey
      right
      exact ⟨rfl, t, mn, hstep, hfq, hft, by
        rw [heq]; exact tlookup_tupdate_self acc.transitions mq c mn⟩
    · left
      rw [heq]
      show tlookup (tupdate acc.transitions mq c mn) j0 c0 = _
      refine tlookup_tupdate_other acc.transitions mn ?_
      intro hpc
      injection hpc with hpc1 hpc2
      exact hkey ⟨hpc1.symm, hpc2.symm⟩

theorem pairsFold_persist {σ : Type} [DecidableEq σ] {d : DFA σ} {Pf : List (List σ)}
    {j0 : Nat} {c0 : Char} {v : Nat} :
    ∀ (L : List (σ × Char)) (n : DFA Nat),
      (∀ qc ∈ L, ∀ t, step d qc.1 qc.2 = some t → findBlockIdx Pf qc.1 = some j0 →
        qc.2 = c0 → findBlockIdx Pf t = some v) →
      tlookup n.transitions j0 c0 = some v →
      tlookup ((L.foldl (fun acc qc => copyStep d Pf acc qc.1 qc.2) n)).transitions
        j0 c0 = some v := by
  intro L
  induction L with
  | nil => exact fun n _ h => h
  | cons qc L ih =>
    intro n Hcons hsome
    rw [List.foldl_cons]
    have htail : ∀ qc' ∈ L, ∀ t, step d qc'.1 qc'.2 = some t →
        findBlockIdx Pf qc'.1 = some j0 → qc'.2 = c0 → findBlockIdx Pf t = some v :=
      fun qc' hqc' => Hcons qc' (List.mem_cons_of_mem _ hqc')
    rcases copyStep_tlookup_cases d Pf n qc.1 qc.2 j0 c0 with
      heq | ⟨hcc, t, mn, hstep, hfq, hft, hval⟩
    · exact ih _ htail (by rw [heq]; exact hsome)
    · have hv : findBlockIdx Pf t = some v :=
        Hcons qc (List.mem_cons_self _ _) t hstep hfq hcc
      rw [hft] at hv
      injection hv with hv
      rw [hv] at hval
      exact ih _ htail hval

theorem pairsFold_written {σ : Type} [DecidableEq σ] {d : DFA σ} {Pf : List (List σ)}
    {j0 : Nat} {c0 : Char} {v : Nat} :
    ∀ (L : List (σ × Char)) (n : DFA Nat),
      (∀ qc ∈ L, ∀ t, step d qc.1 qc.2 = some t → findBlockIdx Pf qc.1 = some j0 →
        qc.2 = c0 → findBlockIdx Pf t = some v) →
      c0 ∈ n.alphabet →
      (∃ qc ∈ L, qc.2 = c0 ∧ findBlockIdx Pf qc.1 = some j0 ∧
        ∃ t, step d qc.1 qc.2 = some t) →
      tlookup ((L.foldl (fun acc qc => copyStep d Pf acc qc.1 qc.2) n)).transitions
        j0 c0 = some v := by
  intro L
  induction L with
  | nil => rintro n _ _ ⟨qc, hqc, _⟩; cases hqc
  | cons qc L ih =>
    rintro n Hcons hc ⟨qc', hqc', hc0, hfq', t', hstep'⟩
    rw [List.foldl_cons]
    have htail : ∀ qc2 ∈ L, ∀ t, step d qc2.1 qc2.2 = some t →
        findBlockIdx Pf qc2.1 = some j0 → qc2.2 = c0 → findBlockIdx Pf t = some v :=
      fun qc2 hqc2 => Hcons qc2 (List.mem_cons_of_mem _ hqc2)
    rcases List.mem_cons.mp hqc' with rfl | hmem
    · have hv : findBlockIdx Pf t' = some v :=
        Hcons qc' (List.mem_cons_self _ _) t' hstep' hfq' hc0
      have hwrite : tlookup (copyStep d Pf n qc'.1 qc'.2).transitions j0 c0 =
          some v := by
        rw [hc0] at hstep' ⊢
        exact copyStep_tlookup_write hstep' hfq' hv hc
      exact pairsFold_persist L _ htail hwrite
    · refine ih _ htail ?_ ⟨qc', hmem, hc0, hfq', t', hstep'⟩
      rw [(copyStep_frame d Pf n qc.1 qc.2).1]
      exact hc

theorem same_block_accept {σ : Type} [DecidableEq σ] {d : DFA σ} (hwf : WF d)
    (htot : TotalD d) {Pf : List (List σ)} (hP : PartInv d Pf) (hH : Homog d Pf)
    (hstab : ∀ c ∈ d.alphabet, ∀ B ∈ Pf, StableWrt d Pf c (lset B)) :
    ∀ (w : List Char), word_ok d.alphabet w → ∀ B ∈ Pf, ∀ q ∈ B, ∀ q' ∈ B,
      q ∈ d.states → q' ∈ d.states → accepts_st d q w = accepts_st d q' w := by
  intro w
  induction w with
  | nil =>
    intro _ B hB q hq q' hq' _ _
    show decide (q ∈ d.accepting_states) = decide (q' ∈ d.accepting_states)
    rcases hH B hB with hall | hnone
    · rw [decide_eq_true (hall q hq), decide_eq_true (hall q' hq')]
    · rw [decide_eq_false (hnone q hq), decide_eq_false (hnone q' hq')]
  | cons c w ih =>
    intro hw B hB q hq q' hq' hqs hq's
    have hc : c ∈ d.alphabet := hw c (List.mem_cons_self _ _)
    have hw' : word_ok d.alphabet w := fun x hx => hw x (List.mem_cons_of_mem _ hx)
    obtain ⟨t, hstep⟩ := Option.isSome_iff_exists.mp (htot q hqs c hc)
    obtain ⟨t', hstep'⟩ := Option.isSome_iff_exists.mp (htot q' hq's c hc)
    have hts : t ∈ d.states := step_mem_states hwf hstep
    have ht's : t' ∈ d.states := step_mem_states hwf hstep'
    obtain ⟨Bt, hBt, htBt⟩ := hP.2.2.1 t hts
    rcases hstab c hc Bt hBt B hB with hpre | hnpre
    · obtain ⟨t'', hstep'', ht''⟩ := hpre q' hq'
      rw [hstep'] at hstep''
      injection hstep'' with hstep''
      have ht'Bt : t' ∈ Bt := hstep'' ▸ ht''
      have e1 : accepts_st d q (c :: w) = accepts_st d t w := by
        show accepts_from d (some q) (c :: w) = _
        simp only [accepts_from, hstep]
        rfl
      have e2 : accepts_st d q' (c :: w) = accepts_st d t' w := by
        show accepts_from d (some q') (c :: w) = _
        simp only [accepts_from, hstep']
        rfl
      rw [e1, e2]
      exact ih hw' Bt hBt t htBt t' ht'Bt hts ht's
    · exact absurd ⟨t, hstep, htBt⟩ (hnpre q hq)

theorem minimize_eq {σ : Type} [DecidableEq σ] (d : DFA σ) {s0 : σ}
    (hs : d.start_state = some s0) :
    minimize d =
      (match findBlockIdx (hopcroftLoop d (3 * d.states.length + 4)
          [d.accepting_states, d.states.filter (fun q => q ∉ d.accepting_states)]
          [d.accepting_states]) s0 with
      | none => none
      | some i0 =>
        some (copyTransitions d
          (hopcroftLoop d (3 * d.states.length + 4)
            [d.accepting_states, d.states.filter (fun q => q ∉ d.accepting_states)]
            [d.accepting_states])
          (set_start
            ((hopcroftLoop d (3 * d.states.length + 4)
              [d.accepting_states, d.states.filter (fun q => q ∉ d.accepting_states)]
              [d.accepting_states]).enum.foldl
              (fun a ib => addBlockStates d.accepting_states a ib)
              (DFA.init d.alphabet))
            i0))) := by
  unfold minimize
  rw [hs]

theorem same_block_langEq {σ : Type} [DecidableEq σ] {d : DFA σ} (hwf : WF d)
    (htot : TotalD d) {Pf : List (List σ)} (hP : PartInv d Pf) (hH : Homog d Pf)
    (hstab : ∀ c ∈ d.alphabet, ∀ B ∈ Pf, StableWrt d Pf c (lset B)) {B : List σ}
    (hB : B ∈ Pf) {q q' : σ} (hq : q ∈ B) (hq' : q' ∈ B) (hqs : q ∈ d.states)
    (hq's : q' ∈ d.states) : LangEq d q q' :=
  fun w hw => same_block_accept hwf htot hP hH hstab w hw B hB q hq q' hq' hqs hq's

/-- The full characterization of `minimize` on well-formed total automata with a
start state: it succeeds, the result is well-formed and total, has the same
alphabet, a start state inside its state set, accepts exactly the same words
over the alphabet, has pairwise inequivalent states, and keeps the state count
whenever the input already had pairwise inequivalent states. -/
theorem minimize_master {σ : Type} [DecidableEq σ] (d : DFA σ) (hwf : WF d)
    (htot : TotalD d) (s0 : σ) (hs : d.start_state = some s0) (hs0 : s0 ∈ d.states) :
    ∃ m : DFA Nat, minimize d = some m ∧
      WF m ∧ TotalD m ∧ m.alphabet = d.alphabet ∧
      (∃ i0, m.start_state = some i0 ∧ i0 ∈ m.states) ∧
      (∀ w, word_ok d.alphabet w → accepts m w = accepts d w) ∧
      (∀ i ∈ m.states, ∀ j ∈ m.states, i ≠ j → ¬ LangEq m i j) ∧
      ((∀ q ∈ d.states, ∀ q' ∈ d.states, q ≠ q' → ¬ LangEq d q q') →
        m.states.length = d.states.length) := by
  have hinv0 : HopInv d
      [d.accepting_states, d.states.filter (fun q => q ∉ d.accepting_states)]
      [d.accepting_states] := hopInv_init hwf htot
  have hm0 : hopMeasure d
      [d.accepting_states, d.states.filter (fun q => q ∉ d.accepting_states)]
      [d.accepting_states] ≤ 3 * d.states.length + 4 := by
    show 3 * (d.states.length + 2 - 2) + 1 ≤ 3 * d.states.length + 4
    omega
  obtain ⟨hP, hH, hS, hstab⟩ := hopcroftLoop_spec hwf htot (3 * d.states.length + 4)
    [d.accepting_states, d.states.filter (fun q => q ∉ d.accepting_states)]
    [d.accepting_states] hinv0 hm0
  set Pf := hopcroftLoop d (3 * d.states.length + 4)
    [d.accepting_states, d.states.filter (fun q => q ∉ d.accepting_states)]
    [d.accepting_states] with hPfdef
  have hblocks := hP.1
  have hdisj := hP.2.1
  have hcov := hP.2.2.1
  have hfbi : ∀ q ∈ d.states, ∃ j, findBlockIdx Pf q = some j := by
    intro q hq
    obtain ⟨B, hB, hqB⟩ := hcov q hq
    exact findBlockIdx_isSome_of_mem hB hqB
  obtain ⟨i0, hi0⟩ := hfbi s0 hs0
  set n1 := Pf.enum.foldl (fun a ib => addBlockStates d.accepting_states a ib)
    (DFA.init d.alphabet) with hn1def
  have hn1alph : n1.alphabet = d.alphabet :=
    (enumFold_frame d.accepting_states Pf.enum (DFA.init d.alphabet)).1
  have hn1wf : WF n1 :=
    enumFold_wf d.accepting_states Pf.enum (DFA.init d.alphabet) (wf_init d.alphabet)
  have hn1states : n1.states = (Pf.enum.filter (fun p => !p.2.isEmpty)).map Prod.fst := by
    have hnd : (Pf.enum.map Prod.fst).Nodup := by
      rw [List.enum_map_fst]
      exact List.nodup_range Pf.length
    have h := enumFold_states d.accepting_states Pf.enum (DFA.init d.alphabet)
      (fun p _ => List.not_mem_nil p.1) hnd
    exact h
  have hidxmem : ∀ j : Nat, j ∈ n1.states ↔ ∃ B, Pf[j]? = some B ∧ B ≠ [] := by
    intro j
    rw [hn1states, List.mem_map]
    constructor
    · rintro ⟨p, hp, rfl⟩
      obtain ⟨hpe, hpne⟩ := List.mem_filter.mp hp
      refine ⟨p.2, List.mem_enum_iff_getElem?.mp hpe, ?_⟩
      intro hnil
      rw [hnil] at hpne
      simp at hpne
    · rintro ⟨B, hB, hBne⟩
      refine ⟨(j, B), List.mem_filter.mpr ⟨List.mem_enum_iff_getElem?.mpr hB, ?_⟩, rfl⟩
      cases B with
      | nil => exact absurd rfl hBne
      | cons a l => rfl
  have hidx : ∀ x ∈ d.states, ∀ j, findBlockIdx Pf x = some j → j ∈ n1.states := by
    intro x hx j hj
    obtain ⟨B, hBj, hxB⟩ := findBlockIdx_spec hj
    exact (hidxmem j).mpr ⟨B, hBj, fun hnil => by rw [hnil] at hxB; cases hxB⟩
  have hi0mem : i0 ∈ n1.states := hidx s0 hs0 i0 hi0
  set n2 := set_start n1 i0 with hn2def
  have hn2states : n2.states = n1.states := by
    show insertS n1.states i0 = n1.states
    rw [insertS, if_pos hi0mem]
  have hn2alph : n2.alphabet = d.alphabet := hn1alph
  have hn2wf : WF n2 := wf_set_start hn1wf i0
  set m := copyTransitions d Pf n2 with hmdef
  have hmeq : m = (statePairs d).foldl (fun acc qc => copyStep d Pf acc qc.1 qc.2) n2 :=
    copyTransitions_eq_pairs d Pf n2
  obtain ⟨hmalph0, hmacc0, hmstart0⟩ := pairsFold_frame d Pf (statePairs d) n2
  have hmalph : m.alphabet = d.alphabet := by rw [hmeq]; exact hmalph0.trans hn2alph
  have hmacc : m.accepting_states = n1.accepting_states := by rw [hmeq]; exact hmacc0
  have hmstart : m.start_state = some i0 := by rw [hmeq]; exact hmstart0
  have hmstates : m.states = n1.states := by
    rw [hmeq]
    rw [pairsFold_states hwf (statePairs d) n2
      (fun qc hqc => ((mem_statePairs d qc).mp hqc).1)
      (fun x hx j hj => by rw [hn2states]; exact hidx x hx j hj)]
    exact hn2states
  have hmwf : WF m := by rw [hmeq]; exact pairsFold_wf d Pf (statePairs d) n2 hn2wf
  have hstep_m : ∀ q ∈ d.states, ∀ c ∈ d.alphabet, ∀ j, findBlockIdx Pf q = some j →
      ∃ t v, step d q c = some t ∧ findBlockIdx Pf t = some v ∧ step m j c = some v := by
    intro q hq c hc j hj
    obtain ⟨t, hstept⟩ := Option.isSome_iff_exists.mp (htot q hq c hc)
    have hts : t ∈ d.states := step_mem_states hwf hstept
    obtain ⟨v, hv⟩ := hfbi t hts
    obtain ⟨Bv, hBv, htv⟩ := findBlockIdx_spec hv
    have hBvmem : Bv ∈ Pf := List.getElem?_mem hBv
    obtain ⟨Bj, hBj, hqBj⟩ := findBlockIdx_spec hj
    have hBjmem : Bj ∈ Pf := List.getElem?_mem hBj
    refine ⟨t, v, hstept, hv, ?_⟩
    have Hcons : ∀ qc ∈ statePairs d, ∀ t', step d qc.1 qc.2 = some t' →
        findBlockIdx Pf qc.1 = some j → qc.2 = c → findBlockIdx Pf t' = some v := by
      intro qc hqc t' hstep' hj' hc'
      rw [hc'] at hstep'
      obtain ⟨Bj', hBj', hqBj'⟩ := findBlockIdx_spec hj'
      rw [hBj] at hBj'
      injection hBj' with hBB
      rw [← hBB] at hqBj'
      rcases hstab c hc Bv hBvmem Bj hBjmem with hpre | hnpre
      · obtain ⟨t'', hstep'', ht''⟩ := hpre qc.1 hqBj'
        rw [hstep'] at hstep''
        injection hstep'' with he
        rw [← he] at ht''
        exact findBlockIdx_of_getElem hdisj hBv ht''
      · exact absurd (⟨t, hstept, htv⟩ : q ∈ preSet d c (lset Bv)) (hnpre q hqBj)
    have hc2 : c ∈ n2.alphabet := by rw [hn2alph]; exact hc
    have hwrt := pairsFold_written (statePairs d) n2 Hcons hc2
      ⟨(q, c), (mem_statePairs d (q, c)).mpr ⟨hq, hc⟩, rfl, hj, t, hstept⟩
    show tlookup m.transitions j c = some v
    rw [hmeq]
    exact hwrt
  have hrun : ∀ (w : List Char), word_ok d.alphabet w → ∀ q ∈ d.states, ∀ j,
      findBlockIdx Pf q = some j →
      ∃ t v, runFrom d q w = some t ∧ t ∈ d.states ∧ findBlockIdx Pf t = some v ∧
        runFrom m j w = some v := by
    intro w
    induction w with
    | nil => intro _ q hq j hj; exact ⟨q, j, rfl, hq, hj, rfl⟩
    | cons c w ih =>
      intro hw q hq j hj
      have hc : c ∈ d.alphabet := hw c (List.mem_cons_self _ _)
      have hw' : word_ok d.alphabet w := fun x hx => hw x (List.mem_cons_of_mem _ hx)
      obtain ⟨t, v, hstept, hv, hstepm⟩ := hstep_m q hq c hc j hj
      obtain ⟨t2, v2, hrun2, ht2, hv2, hrunm2⟩ :=
        ih hw' t (step_mem_states hwf hstept) v hv
      refine ⟨t2, v2, ?_, ht2, hv2, ?_⟩
      · show runFrom d q (c :: w) = some t2
        simp only [runFrom, hstept]
        exact hrun2
      · show runFrom m j (c :: w) = some v2
        simp only [runFrom, hstepm]
        exact hrunm2
  have haccm : ∀ q ∈ d.states, ∀ j, findBlockIdx Pf q = some j →
      (j ∈ m.accepting_states ↔ q ∈ d.accepting_states) := by
    intro q hq j hj
    obtain ⟨Bj, hBj, hqBj⟩ := findBlockIdx_spec hj
    have hBjmem : Bj ∈ Pf := List.getElem?_mem hBj
    have hiff := enumFold_accepting d.accepting_states Pf.enum (DFA.init d.alphabet) j
    rw [hmacc]
    constructor
    · intro hjm
      rcases hiff.mp hjm with habs | ⟨p, hp, hjp, s, hsp, hsF⟩
      · exact absurd habs (List.not_mem_nil j)
      · have hPp := List.mem_enum_iff_getElem?.mp hp
        rw [← hjp] at hPp
        rw [hBj] at hPp
        injection hPp with hPp
        rcases hH Bj hBjmem with hall | hnone
        · exact hall q hqBj
        · rw [← hPp] at hsp
          exact absurd hsF (hnone s hsp)
    · intro hqF
      exact hiff.mpr
        (Or.inr ⟨(j, Bj), List.mem_enum_iff_getElem?.mpr hBj, rfl, q, hqBj, hqF⟩)
  have htrans : ∀ w, word_ok d.alphabet w → ∀ x ∈ d.states, ∀ k,
      findBlockIdx Pf x = some k → accepts_st m k w = accepts_st d x w := by
    intro w hw x hx k hk
    obtain ⟨t, v, hrund, hts, hv, hrunm⟩ := hrun w hw x hx k hk
    show accepts_from m (some k) w = accepts_from d (some x) w
    rw [accepts_from_eq_runFrom m w k, accepts_from_eq_runFrom d w x, hrund, hrunm]
    show decide (v ∈ m.accepting_states) = decide (t ∈ d.accepting_states)
    have hiff := haccm t hts v hv
    by_cases hF : t ∈ d.accepting_states
    · rw [decide_eq_true (hiff.mpr hF), decide_eq_true hF]
    · rw [decide_eq_false (fun hvm => hF (hiff.mp hvm)), decide_eq_false hF]
  have haccepts : ∀ w, word_ok d.alphabet w → accepts m w = accepts d w := by
    intro w hw
    have h1 : accepts m w = accepts_st m i0 w := by
      show accepts_from m m.start_state w = _
      rw [hmstart]
      rfl
    have h2 : accepts d w = accepts_st d s0 w := by
      show accepts_from d d.start_state w = _
      rw [hs]
      rfl
    rw [h1, h2]
    exact htrans w hw s0 hs0 i0 hi0
  have hmtot : TotalD m := by
    intro j hj c hc
    rw [hmstates] at hj
    obtain ⟨B, hBj, hBne⟩ := (hidxmem j).mp hj
    obtain ⟨q, hqB⟩ : ∃ q, q ∈ B := by
      cases B with
      | nil => exact absurd rfl hBne
      | cons a l => exact ⟨a, List.mem_cons_self _ _⟩
    have hBmem : B ∈ Pf := List.getElem?_mem hBj
    have hqs : q ∈ d.states := (hblocks B hBmem).2 q hqB
    have hfq : findBlockIdx Pf q = some j := findBlockIdx_of_getElem hdisj hBj hqB
    have hc' : c ∈ d.alphabet := by rw [hmalph] at hc; exact hc
    obtain ⟨t, v, _, _, hstepm⟩ := hstep_m q hqs c hc' j hfq
    rw [hstepm]
    rfl
  have hdist : ∀ i ∈ m.states, ∀ j ∈ m.states, i ≠ j → ¬ LangEq m i j := by
    intro i him j hjm hne hlang
    rw [hmstates] at him hjm
    obtain ⟨Bi, hBi, hBine⟩ := (hidxmem i).mp him
    obtain ⟨Bj, hBj, hBjne⟩ := (hidxmem j).mp hjm
    obtain ⟨q, hqBi⟩ : ∃ q, q ∈ Bi := by
      cases Bi with
      | nil => exact absurd rfl hBine
      | cons a l => exact ⟨a, List.mem_cons_self _ _⟩
    obtain ⟨q', hq'Bj⟩ : ∃ q', q' ∈ Bj := by
      cases Bj with
      | nil => exact absurd rfl hBjne
      | cons a l => exact ⟨a, List.mem_cons_self _ _⟩
    have hBimem : Bi ∈ Pf := List.getElem?_mem hBi
    have hBjmem : Bj ∈ Pf := List.getElem?_mem hBj
    have hqs : q ∈ d.states := (hblocks Bi hBimem).2 q hqBi
    have hq's : q' ∈ d.states := (hblocks Bj hBjmem).2 q' hq'Bj
    have hfq : findBlockIdx Pf q = some i := findBlockIdx_of_getElem hdisj hBi hqBi
    have hfq' : findBlockIdx Pf q' = some j := findBlockIdx_of_getElem hdisj hBj hq'Bj
    have hnl : ¬ LangEq d q q' := by
      intro hl
      have hq'Bi : q' ∈ Bi := hS Bi hBimem q hqBi q' hq's hl
      have h2 := findBlockIdx_of_getElem hdisj hBi hq'Bi
      rw [hfq'] at h2
      injection h2 with h2
      exact hne h2.symm
    apply hnl
    intro w hw
    rw [← htrans w hw q hqs i hfq, ← htrans w hw q' hq's j hfq']
    exact hlang w (by rw [hmalph]; exact hw)
  have hcount : (∀ q ∈ d.states, ∀ q' ∈ d.states, q ≠ q' → ¬ LangEq d q q') →
      m.states.length = d.states.length := by
    intro hdd
    have h1 : d.states.length ≤ m.states.length := by
      refine length_le_of_inj_map d.states m.states
        (fun q => (findBlockIdx Pf q).getD 0) ?_ hwf.1 ?_
      · intro x hx y hy hxy
        obtain ⟨jx, hjx⟩ := hfbi x hx
        obtain ⟨jy, hjy⟩ := hfbi y hy
        simp only [hjx, hjy, Option.getD_some] at hxy
        obtain ⟨Bx, hBx, hxB⟩ := findBlockIdx_spec hjx
        obtain ⟨By, hBy, hyB⟩ := findBlockIdx_spec hjy
        rw [← hxy] at hBy
        rw [hBx] at hBy
        injection hBy with hBB
        rw [← hBB] at hyB
        by_contra hne
        exact hdd x hx y hy hne
          (same_block_langEq hwf htot hP hH hstab (List.getElem?_mem hBx) hxB hyB hx hy)
      · intro x hx
        obtain ⟨jx, hjx⟩ := hfbi x hx
        show (findBlockIdx Pf x).getD 0 ∈ m.states
        rw [hjx]
        simp only [Option.getD_some]
        rw [hmstates]
        exact hidx x hx jx hjx
    have h2 : m.states.length ≤ d.states.length := by
      have h3 : m.states.length ≤ (d.states.map some).length := by
        refine length_le_of_inj_map m.states (d.states.map some)
          (fun j => (Pf.getD j []).head?) ?_ hmwf.1 ?_
        · intro x hx y hy hxy
          rw [hmstates] at hx hy
          obtain ⟨Bx, hBx, hBxne⟩ := (hidxmem x).mp hx
          obtain ⟨By, hBy, hByne⟩ := (hidxmem y).mp hy
          have e1 : Pf.getD x [] = Bx := by
            rw [List.getD_eq_getElem?_getD, hBx]
            rfl
          have e2 : Pf.getD y [] = By := by
            rw [List.getD_eq_getElem?_getD, hBy]
            rfl
          simp only [e1, e2] at hxy
          obtain ⟨q, hqh, hqBx⟩ : ∃ q, Bx.head? = some q ∧ q ∈ Bx := by
            cases Bx with
            | nil => exact absurd rfl hBxne
            | cons a l => exact ⟨a, rfl, List.mem_cons_self _ _⟩
          have hqBy : q ∈ By := by
            cases By with
            | nil => exact absurd rfl hByne
            | cons a l =>
              rw [hqh] at hxy
              have hxy' : some q = some a := hxy
              injection hxy' with hxy'
              rw [hxy']
              exact List.mem_cons_self _ _
          have f1 : findBlockIdx Pf q = some x := findBlockIdx_of_getElem hdisj hBx hqBx
          have f2 : findBlockIdx Pf q = some y := findBlockIdx_of_getElem hdisj hBy hqBy
          rw [f1] at f2
          injection f2
        · intro x hx
          rw [hmstates] at hx
          obtain ⟨Bx, hBx, hBxne⟩ := (hidxmem x).mp hx
          have e1 : Pf.getD x [] = Bx := by
            rw [List.getD_eq_getElem?_getD, hBx]
            rfl
          show (Pf.getD x []).head? ∈ d.states.map some
          rw [e1]
          obtain ⟨q, hqh, hqBx⟩ : ∃ q, Bx.head? = some q ∧ q ∈ Bx := by
            cases Bx with
            | nil => exact absurd rfl hBxne
            | cons a l => exact ⟨a, rfl, List.mem_cons_self _ _⟩
          rw [hqh]
          exact List.mem_map.mpr
            ⟨q, (hblocks Bx (List.getElem?_mem hBx)).2 q hqBx, rfl⟩
      rw [List.length_map] at h3
      exact h3
    omega
  have hmin : minimize d = some m := by
    have h0 := minimize_eq d hs
    rw [← hPfdef] at h0
    simp only [hi0] at h0
    rw [← hn1def] at h0
    rw [← hn2def] at h0
    rw [← hmdef] at h0
    exact h0
  exact ⟨m, hmin, hmwf, hmtot, hmalph,
    ⟨i0, hmstart, by rw [hmstates]; exact hi0mem⟩, haccepts, hdist, hcount⟩

/-- C2 (amended): for every deterministic automaton that is total over its
alphabet and whose start state is set and drawn from its state set,
`minimize` succeeds, the quotient accepts exactly the words over the
alphabet the original accepts, and no two distinct states of the quotient
are language-equivalent. -/
theorem C2_amended_minimize_preserves {σ : Type} [DecidableEq σ] (d : DFA σ)
    (hwf : WF d) (htot : TotalD d) (s0 : σ) (hs : d.start_state = some s0)
    (hs0 : s0 ∈ d.states) :
    ∃ m : DFA Nat, minimize d = some m ∧
      (∀ w, word_ok d.alphabet w → accepts m w = accepts d w) ∧
      (∀ i ∈ m.states, ∀ j ∈ m.states, i ≠ j → ¬ LangEq m i j) := by
  obtain ⟨m, hmin, _, _, _, _, hacc, hdist, _⟩ := minimize_master d hwf htot s0 hs hs0
  exact ⟨m, hmin, hacc, hdist⟩

theorem C2_amended_minimize_preserves_witness :
    WF evenA ∧ TotalD evenA ∧ evenA.start_state = some 0 ∧ 0 ∈ evenA.states ∧
    ∃ m : DFA Nat, minimize evenA = some m ∧
      (∀ w, word_ok evenA.alphabet w → accepts m w = accepts evenA w) ∧
      (∀ i ∈ m.states, ∀ j ∈ m.states, i ≠ j → ¬ LangEq m i j) :=
  ⟨by unfold WF; decide, by unfold TotalD; decide, rfl, by decide,
    C2_amended_minimize_preserves evenA (by unfold WF; decide)
      (by unfold TotalD; decide) 0 rfl (by decide)⟩

/-- C7 (amended): for every deterministic automaton that is total over its
alphabet and whose start state is set and drawn from its state set,
minimizing twice yields an automaton with the same number of states as
minimizing once. -/
theorem C7_amended_minimize_idempotent {σ : Type} [DecidableEq σ] (d : DFA σ)
    (hwf : WF d) (htot : TotalD d) (s0 : σ) (hs : d.start_state = some s0)
    (hs0 : s0 ∈ d.states) :
    ∃ m : DFA Nat, minimize d = some m ∧
      ∃ m2 : DFA Nat, minimize m = some m2 ∧
        m2.states.length = m.states.length := by
  obtain ⟨m, hmin, hmwf, hmtot, _, ⟨i0, hmstart, hi0mem⟩, _, hdist, _⟩ :=
    minimize_master d hwf htot s0 hs hs0
  obtain ⟨m2, hmin2, _, _, _, _, _, _, hcount⟩ :=
    minimize_master m hmwf hmtot i0 hmstart hi0mem
  exact ⟨m, hmin, m2, hmin2, hcount hdist⟩

theorem C7_amended_minimize_idempotent_witness :
    WF evenA ∧ TotalD evenA ∧ evenA.start_state = some 0 ∧ 0 ∈ evenA.states ∧
    ∃ m : DFA Nat, minimize evenA = some m ∧
      ∃ m2 : DFA Nat, minimize m = some m2 ∧
        m2.states.length = m.states.length :=
  ⟨by unfold WF; decide, by unfold TotalD; decide, rfl, by decide,
    C7_amended_minimize_idempotent evenA (by unfold WF; decide)
      (by unfold TotalD; decide) 0 rfl (by decide)⟩

end GAB
